import Mathlib

/-!
Verification development for the synotra-vscode static-analysis core.

The TypeScript sources are shallowly embedded: lines and documents are
lists of characters, the regular-expression patterns of
`src/inference/engine/regexPatterns.ts` become executable scanning
functions, and the classes `Parser` (src/core/parser.ts),
`InferenceEngine` (src/inlay.ts, second module: the inference engine
revision shipped with the inlay provider), `ExpressionInference`
(the later engine revision) and `TypeRegistry` (src/core/parser.ts,
third module: types.ts) become pure Lean functions.
-/

namespace Synotra

/-! ## Character classes

JavaScript character classes restricted to the ASCII range, which is
the only range the analysed documents use: `\w` is `[A-Za-z0-9_]`,
`\d` is `[0-9]`, `\s` contains space, tab, CR, LF, vertical tab and
form feed. -/

def isWordChar (c : Char) : Bool :=
  c.isAlpha || c.isDigit || c = '_'

def isIdStart (c : Char) : Bool :=
  c.isAlpha || c = '_'

def isSpaceJS (c : Char) : Bool :=
  c = ' ' || c = '\t' || c = '\n' || c = '\r' || c = '\x0b' || c = '\x0c'

/-! ## Generic string utilities over `List Char` -/

/-- `takeLit pat cs` strips the literal `pat` from the front of `cs`,
returning the remainder, or `none` when `cs` does not start with `pat`. -/
def takeLit : List Char → List Char → Option (List Char)
  | [], cs => some cs
  | _ :: _, [] => none
  | p :: ps, c :: cs => if c = p then takeLit ps cs else none

/-- Substring test, the embedding of JavaScript `String.includes`. -/
def containsSeq (pat : List Char) : List Char → Bool
  | [] => (takeLit pat []).isSome
  | c :: cs => (takeLit pat (c :: cs)).isSome || containsSeq pat cs

/-- JavaScript `String.trim`: drop whitespace from both ends. -/
def trimJS (cs : List Char) : List Char :=
  ((cs.dropWhile isSpaceJS).reverse.dropWhile isSpaceJS).reverse

/-- Split a character list at every occurrence of the character `sep`
(the embedding of `String.split` with a one-character separator).
Always returns at least one piece. -/
def splitOnChar (sep : Char) : List Char → List (List Char)
  | [] => [[]]
  | c :: cs =>
    let rest := splitOnChar sep cs
    if c = sep then [] :: rest
    else (c :: rest.headD []) :: rest.tail

/-- `text.split("\n")`, used by the structural parser's constructor. -/
def splitNL (text : List Char) : List (List Char) :=
  splitOnChar '\n' text

/-- Drop a single carriage return from the end of a line. -/
def dropTrailingCR (cs : List Char) : List Char :=
  match cs.reverse with
  | '\r' :: rest => rest.reverse
  | _ => cs

/-- Apply `f` to every element of a list except the last one. -/
def mapExceptLast (f : List Char → List Char) : List (List Char) → List (List Char)
  | [] => []
  | [l] => [l]
  | l :: ls => f l :: mapExceptLast f ls

/-- `text.split(/\r?\n/)`, used by the inference engine: split on
newlines where each newline may consume one preceding carriage
return.  Equivalent to splitting on bare newlines and then dropping a
single trailing carriage return from every piece but the last. -/
def splitRN (text : List Char) : List (List Char) :=
  mapExceptLast dropTrailingCR (splitNL text)

theorem splitOnChar_ne_nil (sep : Char) (cs : List Char) :
    splitOnChar sep cs ≠ [] := by
  cases cs with
  | nil => simp [splitOnChar]
  | cons c cs =>
    simp only [splitOnChar]
    split <;> simp

theorem splitNL_ne_nil (text : List Char) : splitNL text ≠ [] :=
  splitOnChar_ne_nil '\n' text

/-! ## Pattern library: the regular expressions used by the parser

Each pattern of `regexPatterns.ts` becomes a scanning function.  A
JavaScript `String.match` with an unanchored pattern tries the pattern
at every position from left to right; the scanners below walk the line
one character at a time carrying the previous character (for the `\b`
word-boundary assertions) and attempt the body of the pattern at each
position. -/

/-- Try `kw\s+([A-Za-z_][A-Za-z0-9_]*)` at the current position.
Returns the captured identifier and the remainder of the line after
it.  The identifier capture is maximal, which matches the greedy
`[A-Za-z0-9_]*`: backtracking to a shorter capture can never help
because the next character would then still be a word character,
failing whatever non-word continuation the pattern requires. -/
def kwIdAt (kw : List Char) (cs : List Char) : Option (List Char × List Char) :=
  match takeLit kw cs with
  | none => none
  | some rest =>
    match rest with
    | [] => none
    | c :: _ =>
      if isSpaceJS c then
        match rest.dropWhile isSpaceJS with
        | [] => none
        | d :: ds =>
          if isIdStart d then some (d :: ds.takeWhile isWordChar, ds.dropWhile isWordChar)
          else none
      else none

/-- `\b`-style test: the position after `prev` may start a keyword
match when the boundary is not required, at the start of the line, or
after a non-word character. -/
def boundaryOK (boundary : Bool) : Option Char → Bool
  | none => true
  | some p => !boundary || !isWordChar p

/-- Left-to-right scan applying `f` at every position.  When
`boundary` is set, a position is only tried when the previous
character is absent or a non-word character (the `\b` assertion in
front of a keyword that starts with a word character). -/
def scanPos (f : List Char → Option α) (boundary : Bool) : Option Char → List Char → Option α
  | _, [] => none
  | prev, c :: cs =>
    match if boundaryOK boundary prev then f (c :: cs) else none with
    | some r => some r
    | none => scanPos f boundary (some c) cs

/-- `BUILTIN_TYPES.CLASS_NAME`: `\bclass\s+([a-zA-Z_][a-zA-Z0-9_]*)`. -/
def matchClassName (line : List Char) : Option (List Char) :=
  scanPos (fun cs => (kwIdAt "class".data cs).map (·.1)) true none line

/-- `BUILTIN_TYPES.ACTOR_NAME`: `\bactor\s+([a-zA-Z_][a-zA-Z0-9_]*)`. -/
def matchActorName (line : List Char) : Option (List Char) :=
  scanPos (fun cs => (kwIdAt "actor".data cs).map (·.1)) true none line

/-- `FUNCTION.NAME_WITH_OPTIONAL_IO`: `(?:io\s+)?fun\s+([a-zA-Z_][a-zA-Z0-9_]*)`.
The optional `io\s+` only widens the matched substring; it never
changes whether a match exists or which identifier the single capture
group grabs (the capture always sits after the leftmost occurrence of
`fun\s+` that is followed by an identifier), so the scanner looks for
the `fun`-part directly.  There is no word boundary in this source
pattern. -/
def matchFunName (line : List Char) : Option (List Char) :=
  scanPos (fun cs => (kwIdAt "fun".data cs).map (·.1)) false none line

/-- `DECLARATION.KEYWORD_AND_NAME`: `\b(var|val)\s+([a-zA-Z_][a-zA-Z0-9_]*)`;
the structural parser only uses the name capture.  The alternation
tries `var` before `val`, at the same position. -/
def matchVarValName (line : List Char) : Option (List Char) :=
  scanPos
    (fun cs => ((kwIdAt "var".data cs).map (·.1)).or ((kwIdAt "val".data cs).map (·.1)))
    true none line

/-- Lookbehind state for `PARAMETER.ARGUMENT_NAME_IN_SIGNATURE`: after
reading character `c`, the position right after `c` satisfies
`(?<=[(,]\s*)` exactly when `c` is `(` or `,`, or `c` is whitespace
and the position before `c` already satisfied it. -/
def updateLb (lb : Bool) (c : Char) : Bool :=
  c = '(' || c = ',' || (isSpaceJS c && lb)

/-- `PARAMETER.ARGUMENT_NAME_IN_SIGNATURE` with the `g` flag:
`(?<=[(,]\s*)[a-zA-Z_][a-zA-Z0-9_]*(?=\s*:)`, as used with
`String.match`/`matchAll`, returning every match in order.  After a
successful match the engine resumes at the end of the identifier;
resuming at the next character with the lookbehind state updated is
equivalent, because every position strictly inside the identifier has
a word character before it and therefore fails the lookbehind. -/
def argScan (lb : Bool) : List Char → List (List Char)
  | [] => []
  | c :: cs =>
    if lb && isIdStart c then
      match (cs.dropWhile isWordChar).dropWhile isSpaceJS with
      | ':' :: _ => (c :: cs.takeWhile isWordChar) :: argScan false cs
      | _ => argScan (updateLb lb c) cs
    else argScan (updateLb lb c) cs

def argMatches (line : List Char) : List (List Char) :=
  argScan false line

/-! ## The abstract syntax tree

`ASTNode` of `src/core/ast.ts` (the `parent` back-reference is a
non-owning lookup pointer and is not represented; the claims are about
kinds, names, spans and child order).  The children list is a mutually
inductive list type so that the recursive span predicates below are
structurally recursive and compute inside the kernel. -/

inductive NodeKind where
  | program | class_ | actor | function | var | block
  deriving DecidableEq, Repr

mutual
inductive ASTNode where
  | mk (kind : NodeKind) (name : String) (line startLine endLine : Nat)
      (children : NodeList)
  deriving Repr
inductive NodeList where
  | nil
  | cons (n : ASTNode) (ns : NodeList)
  deriving Repr
end

def ASTNode.kind : ASTNode → NodeKind
  | .mk k _ _ _ _ _ => k

def ASTNode.name : ASTNode → String
  | .mk _ n _ _ _ _ => n

def ASTNode.line : ASTNode → Nat
  | .mk _ _ l _ _ _ => l

def ASTNode.startLine : ASTNode → Nat
  | .mk _ _ _ s _ _ => s

def ASTNode.endLine : ASTNode → Nat
  | .mk _ _ _ _ e _ => e

def ASTNode.children : ASTNode → NodeList
  | .mk _ _ _ _ _ cs => cs

def NodeList.append : NodeList → NodeList → NodeList
  | .nil, ys => ys
  | .cons x xs, ys => .cons x (NodeList.append xs ys)

def NodeList.length : NodeList → Nat
  | .nil => 0
  | .cons _ ns => ns.length + 1

/-! ## The structural parser (`src/core/parser.ts`) -/

/-- Character scan of one line inside `findBlockEnd`: `{` increments
the brace count and records that counting has started, `}` decrements
it and, once counting has started, a count of zero ends the block at
the current line (`Sum.inr`).  Otherwise the updated state is carried
to the next line (`Sum.inl`). -/
def braceLine : Int → Bool → List Char → Sum (Int × Bool) Unit
  | bc, fs, [] => .inl (bc, fs)
  | bc, fs, c :: cs =>
    if c = '{' then braceLine (bc + 1) true cs
    else if c = '}' then
      if fs ∧ bc - 1 = 0 then .inr ()
      else braceLine (bc - 1) fs cs
    else braceLine bc fs cs

def fbeGo (total : Nat) : List (List Char) → Nat → Int → Bool → Nat
  | [], _, _, _ => total - 1
  | l :: ls, i, bc, fs =>
    match braceLine bc fs l with
    | .inr _ => i
    | .inl (bc', fs') => fbeGo total ls (i + 1) bc' fs'

/-- `Parser.findBlockEnd`: scan from `startLine` counting braces; if
the document ends before the count returns to zero, the block end
defaults to the last line of the document. -/
def findBlockEnd (lines : List (List Char)) (startLine : Nat) : Nat :=
  fbeGo lines.length (lines.drop startLine) startLine 0 false

theorem fbeGo_ge (total : Nat) :
    ∀ (ls : List (List Char)) (i : Nat) (bc : Int) (fs : Bool),
      i ≤ fbeGo total ls i bc fs ∨ fbeGo total ls i bc fs = total - 1 := by
  intro ls
  induction ls with
  | nil => intro i bc fs; right; rfl
  | cons l ls ih =>
    intro i bc fs
    simp only [fbeGo]
    cases hbl : braceLine bc fs l with
    | inr u => left; exact le_refl i
    | inl st =>
      rcases ih (i + 1) st.1 st.2 with h | h
      · left; exact le_trans (Nat.le_succ i) h
      · right; exact h

theorem fbeGo_le (total : Nat) :
    ∀ (ls : List (List Char)) (i : Nat) (bc : Int) (fs : Bool),
      i + ls.length ≤ total → fbeGo total ls i bc fs ≤ total - 1 := by
  intro ls
  induction ls with
  | nil => intro i bc fs _; exact le_refl _
  | cons l ls ih =>
    intro i bc fs h
    simp only [List.length_cons] at h
    simp only [fbeGo]
    cases hbl : braceLine bc fs l with
    | inr u => show i ≤ total - 1; omega
    | inl st => exact ih (i + 1) st.1 st.2 (by omega)

theorem findBlockEnd_ge (lines : List (List Char)) (s : Nat)
    (h : s < lines.length) : s ≤ findBlockEnd lines s := by
  have h' := fbeGo_ge lines.length (lines.drop s) s 0 false
  unfold findBlockEnd
  rcases h' with h' | h'
  · exact h'
  · rw [h']; omega

theorem findBlockEnd_le (lines : List (List Char)) (s : Nat) :
    findBlockEnd lines s ≤ lines.length - 1 := by
  unfold findBlockEnd
  by_cases hs : s ≤ lines.length
  · exact fbeGo_le lines.length (lines.drop s) s 0 false (by
      simp only [List.length_drop]; omega)
  · rw [List.drop_eq_nil_of_le (by omega)]
    exact le_refl _

/-- Shared node construction of `Parser.parseArguments` in both
revisions: each argument name is trimmed and becomes a variable node
whose `line`, `startLine` and `endLine` are all the header's line. -/
def argNodesOf (ms : List (List Char)) (lineNumber : Nat) : NodeList :=
  match ms with
  | [] => .nil
  | m :: rest =>
    .cons (.mk .var (String.mk (trimJS m)) lineNumber lineNumber lineNumber .nil)
      (argNodesOf rest lineNumber)

/-- `Parser.parseArguments`, first revision (parser.ts, first module):
`line.match(...)` with a global regex returns the array of all matched
substrings, and the code splits only `argumentsMatch[0]` — the first
match — on commas, so at most one node is created. -/
def parseArgumentsV1 (line : List Char) (lineNumber : Nat) : NodeList :=
  match argMatches line with
  | [] => .nil
  | m :: _ => argNodesOf (splitOnChar ',' m) lineNumber

/-- `Parser.parseArguments`, second revision (parser.ts, second
module): one node per match of the parameter pattern. -/
def parseArgumentsV2 (line : List Char) (lineNumber : Nat) : NodeList :=
  argNodesOf (argMatches line) lineNumber

/-- Does a line open a `while`/`if`/`else`/`for` block?  The source
uses plain `String.includes` substring tests. -/
def hasCtrlKw (line : List Char) : Bool :=
  containsSeq "while".data line || containsSeq "if".data line ||
  containsSeq "else".data line || containsSeq "for".data line

/-- `Parser.parseBlockContent` as a fuel-indexed loop over the line
index.  The loop body follows the source order: function header,
`var`/`val` declaration, control-keyword block, otherwise skip.  The
guard `i < lines.length` makes the array-bound of `this.lines[i]`
explicit; it holds whenever `i ≤ e` because every call site passes an
end line `≤ lines.length - 1`.  Fuel `lines.length + 1` is always
sufficient because every recursive call strictly increases `i`
(see `parseBlockLoop_fuel`). -/
def parseBlockLoop (lines : List (List Char)) : Nat → Nat → Nat → NodeList
  | 0, _, _ => .nil
  | fuel + 1, i, e =>
    if h : i ≤ e ∧ i < lines.length then
      let line := lines.get ⟨i, h.2⟩
      match matchFunName line with
      | some fname =>
        let be := findBlockEnd lines i
        .cons
          (.mk .function (String.mk fname) i i be
            ((parseBlockLoop lines fuel (i + 1) be).append (parseArgumentsV2 line i)))
          (parseBlockLoop lines fuel (be + 1) e)
      | none =>
        match matchVarValName line with
        | some vname =>
          .cons (.mk .var (String.mk vname) i i i .nil)
            (parseBlockLoop lines fuel (i + 1) e)
        | none =>
          if hasCtrlKw line then
            let be := findBlockEnd lines i
            .cons
              (.mk .block ("block_" ++ toString i) i i be
                (parseBlockLoop lines fuel (i + 1) be))
              (parseBlockLoop lines fuel (be + 1) e)
          else parseBlockLoop lines fuel (i + 1) e
    else .nil

/-- `Parser.parseTopLevel`: only class and actor headers are
recognised at the top level; each one's body is parsed as a block,
parameters are extracted from the header line, and the scan resumes
after the block. -/
def parseTopLoop (lines : List (List Char)) : Nat → Nat → Nat → NodeList
  | 0, _, _ => .nil
  | fuel + 1, i, e =>
    if h : i ≤ e ∧ i < lines.length then
      let line := lines.get ⟨i, h.2⟩
      match matchClassName line with
      | some cname =>
        let be := findBlockEnd lines i
        .cons
          (.mk .class_ (String.mk cname) i i be
            ((parseBlockLoop lines fuel (i + 1) be).append (parseArgumentsV2 line i)))
          (parseTopLoop lines fuel (be + 1) e)
      | none =>
        match matchActorName line with
        | some aname =>
          let be := findBlockEnd lines i
          .cons
            (.mk .actor (String.mk aname) i i be
              ((parseBlockLoop lines fuel (i + 1) be).append (parseArgumentsV2 line i)))
            (parseTopLoop lines fuel (be + 1) e)
        | none => parseTopLoop lines fuel (i + 1) e
    else .nil

/-- `Parser.parse` on an already split document. -/
def parseLines (lines : List (List Char)) : ASTNode :=
  .mk .program "root" 0 0 (lines.length - 1)
    (parseTopLoop lines (lines.length + 1) 0 (lines.length - 1))

/-- `new Parser(text).parse()`: split on `"\n"` and build the tree. -/
def parse (text : List Char) : ASTNode :=
  parseLines (splitNL text)

/-! ## Span predicates

`spanOK` is the part of the spec's span invariant that the parser
actually guarantees: every node satisfies
`startLine ≤ line ≤ endLine`, and every child's `startLine` lies
inside the parent's `[startLine, endLine]` span.

`fullInvariant` is the invariant exactly as the specification words
it: additionally every child's *whole* span is contained in the
parent's span, and siblings are in strictly ascending `startLine`
order with non-overlapping spans (so each child starts strictly after
the previous child ends). -/

mutual
def spanOK : ASTNode → Bool
  | .mk _ _ line s e cs =>
    decide (s ≤ line) && decide (line ≤ e) && nodesOK s e cs
def nodesOK (lo hi : Nat) : NodeList → Bool
  | .nil => true
  | .cons c cs =>
    decide (lo ≤ c.startLine) && decide (c.startLine ≤ hi) && spanOK c &&
      nodesOK lo hi cs
end

mutual
def fullInvariant : ASTNode → Bool
  | .mk _ _ line s e cs =>
    decide (s ≤ line) && decide (line ≤ e) && fullChildren s e none cs
def fullChildren (s e : Nat) : Option Nat → NodeList → Bool
  | _, .nil => true
  | prevEnd, .cons c cs =>
    decide (s ≤ c.startLine) && decide (c.endLine ≤ e) &&
      (match prevEnd with
       | none => true
       | some pe => decide (pe < c.startLine)) &&
      fullInvariant c && fullChildren s e (some c.endLine) cs
end

theorem nodesOK_mono (lo hi lo' hi' : Nat) (h1 : lo' ≤ lo) (h2 : hi ≤ hi') :
    ∀ ns : NodeList, nodesOK lo hi ns = true → nodesOK lo' hi' ns = true
  | .nil, _ => rfl
  | .cons c cs, h => by
    simp only [nodesOK, Bool.and_eq_true, decide_eq_true_eq] at h ⊢
    exact ⟨⟨⟨by omega, by omega⟩, h.1.2⟩, nodesOK_mono lo hi lo' hi' h1 h2 cs h.2⟩

theorem nodesOK_append (lo hi : Nat) :
    ∀ xs ys : NodeList,
      nodesOK lo hi (xs.append ys) = (nodesOK lo hi xs && nodesOK lo hi ys)
  | .nil, ys => by simp [NodeList.append, nodesOK]
  | .cons c cs, ys => by
    simp only [NodeList.append, nodesOK, nodesOK_append lo hi cs ys,
      Bool.and_assoc]

theorem argNodesOf_ok (k : Nat) :
    ∀ ms : List (List Char), nodesOK k k (argNodesOf ms k) = true
  | [] => rfl
  | m :: rest => by
    simp only [argNodesOf, nodesOK, spanOK, ASTNode.startLine,
      Bool.and_eq_true, decide_eq_true_eq]
    refine ⟨⟨⟨le_refl k, le_refl k⟩, ⟨⟨le_refl k, le_refl k⟩, ?_⟩⟩,
      argNodesOf_ok k rest⟩
    trivial

theorem parseBlockLoop_ok (lines : List (List Char)) :
    ∀ (fuel i e : Nat), nodesOK i e (parseBlockLoop lines fuel i e) = true := by
  intro fuel
  induction fuel with
  | zero => intro i e; rfl
  | succ fuel ih =>
    intro i e
    rw [parseBlockLoop]
    split
    case isFalse => rfl
    case isTrue h =>
      have hbe : i ≤ findBlockEnd lines i := findBlockEnd_ge lines i h.2
      cases hm : matchFunName (lines.get ⟨i, h.2⟩) with
      | some fname =>
        simp only [hm]
        simp only [nodesOK, ASTNode.startLine, Bool.and_eq_true, decide_eq_true_eq]
        refine ⟨⟨⟨le_refl i, h.1⟩, ?_⟩, ?_⟩
        · simp only [spanOK, Bool.and_eq_true, decide_eq_true_eq]
          refine ⟨⟨le_refl i, hbe⟩, ?_⟩
          rw [nodesOK_append]
          simp only [Bool.and_eq_true]
          constructor
          · exact nodesOK_mono (i + 1) (findBlockEnd lines i) i (findBlockEnd lines i)
              (by omega) (le_refl _) _ (ih (i + 1) (findBlockEnd lines i))
          · exact nodesOK_mono i i i (findBlockEnd lines i) (le_refl i) hbe _
              (argNodesOf_ok i _)
        · exact nodesOK_mono (findBlockEnd lines i + 1) e i e (by omega) (le_refl e)
            _ (ih (findBlockEnd lines i + 1) e)
      | none =>
        cases hv : matchVarValName (lines.get ⟨i, h.2⟩) with
        | some vname =>
          simp only [hm, hv]
          simp only [nodesOK, ASTNode.startLine, Bool.and_eq_true, decide_eq_true_eq]
          refine ⟨⟨⟨le_refl i, h.1⟩, ?_⟩,
            nodesOK_mono (i + 1) e i e (by omega) (le_refl e) _ (ih (i + 1) e)⟩
          simp only [spanOK, nodesOK, Bool.and_eq_true, decide_eq_true_eq]
          refine ⟨⟨le_refl i, le_refl i⟩, ?_⟩
          trivial
        | none =>
          simp only [hm, hv]
          split
          case isTrue hctrl =>
            simp only [nodesOK, ASTNode.startLine, Bool.and_eq_true, decide_eq_true_eq]
            refine ⟨⟨⟨le_refl i, h.1⟩, ?_⟩, ?_⟩
            · simp only [spanOK, Bool.and_eq_true, decide_eq_true_eq]
              exact ⟨⟨le_refl i, hbe⟩,
                nodesOK_mono (i + 1) (findBlockEnd lines i) i (findBlockEnd lines i)
                  (by omega) (le_refl _) _ (ih (i + 1) (findBlockEnd lines i))⟩
            · exact nodesOK_mono (findBlockEnd lines i + 1) e i e (by omega)
                (le_refl e) _ (ih (findBlockEnd lines i + 1) e)
          case isFalse hctrl =>
            exact nodesOK_mono (i + 1) e i e (by omega) (le_refl e) _ (ih (i + 1) e)

theorem parseTopLoop_ok (lines : List (List Char)) :
    ∀ (fuel i e : Nat), nodesOK i e (parseTopLoop lines fuel i e) = true := by
  intro fuel
  induction fuel with
  | zero => intro i e; rfl
  | succ fuel ih =>
    intro i e
    rw [parseTopLoop]
    split
    case isFalse => rfl
    case isTrue h =>
      have hbe : i ≤ findBlockEnd lines i := findBlockEnd_ge lines i h.2
      have hnode : ∀ k : NodeKind, ∀ nm : String,
          spanOK (.mk k nm i i (findBlockEnd lines i)
            ((parseBlockLoop lines fuel (i + 1) (findBlockEnd lines i)).append
              (parseArgumentsV2 (lines.get ⟨i, h.2⟩) i))) = true := by
        intro k nm
        simp only [spanOK, Bool.and_eq_true, decide_eq_true_eq]
        refine ⟨⟨le_refl i, hbe⟩, ?_⟩
        rw [nodesOK_append]
        simp only [Bool.and_eq_true]
        constructor
        · exact nodesOK_mono (i + 1) (findBlockEnd lines i) i (findBlockEnd lines i)
            (by omega) (le_refl _) _ (parseBlockLoop_ok lines fuel (i + 1) _)
        · exact nodesOK_mono i i i (findBlockEnd lines i) (le_refl i) hbe _
            (argNodesOf_ok i _)
      cases hm : matchClassName (lines.get ⟨i, h.2⟩) with
      | some cname =>
        simp only [hm]
        simp only [nodesOK, ASTNode.startLine, Bool.and_eq_true, decide_eq_true_eq]
        refine ⟨⟨⟨le_refl i, h.1⟩, hnode .class_ (String.mk cname)⟩, ?_⟩
        exact nodesOK_mono (findBlockEnd lines i + 1) e i e (by omega) (le_refl e)
          _ (ih (findBlockEnd lines i + 1) e)
      | none =>
        cases ha : matchActorName (lines.get ⟨i, h.2⟩) with
        | some aname =>
          simp only [hm, ha]
          simp only [nodesOK, ASTNode.startLine, Bool.and_eq_true, decide_eq_true_eq]
          refine ⟨⟨⟨le_refl i, h.1⟩, hnode .actor (String.mk aname)⟩, ?_⟩
          exact nodesOK_mono (findBlockEnd lines i + 1) e i e (by omega) (le_refl e)
            _ (ih (findBlockEnd lines i + 1) e)
        | none =>
          simp only [hm, ha]
          exact nodesOK_mono (i + 1) e i e (by omega) (le_refl e) _ (ih (i + 1) e)

/-! ## Fuel adequacy

The loops are written with a fuel parameter; `parse` supplies
`lines.length + 1`.  The following stability lemmas document that this
fuel is ample: as long as `lines.length < fuel + i` — which holds for
the initial call with `i = 0` and is preserved because every recursive
call strictly increases `i` — adding more fuel does not change the
result, so the fueled loops agree with the unbounded loops of the
source. -/

theorem parseBlockLoop_fuel (lines : List (List Char)) :
    ∀ (fuel i e : Nat), lines.length < fuel + i →
      parseBlockLoop lines (fuel + 1) i e = parseBlockLoop lines fuel i e := by
  intro fuel
  induction fuel with
  | zero =>
    intro i e h
    rw [parseBlockLoop, parseBlockLoop]
    rw [dif_neg]
    intro hg
    omega
  | succ fuel ih =>
    intro i e h
    rw [parseBlockLoop]
    conv_rhs => rw [parseBlockLoop]
    by_cases hg : i ≤ e ∧ i < lines.length
    · rw [dif_pos hg, dif_pos hg]
      have hbe := findBlockEnd_ge lines i hg.2
      cases hm : matchFunName (lines.get ⟨i, hg.2⟩) with
      | some fname =>
        simp only [hm]
        rw [ih (i + 1) (findBlockEnd lines i) (by omega),
          ih (findBlockEnd lines i + 1) e (by omega)]
      | none =>
        cases hv : matchVarValName (lines.get ⟨i, hg.2⟩) with
        | some vname =>
          simp only [hm, hv]
          rw [ih (i + 1) e (by omega)]
        | none =>
          simp only [hm, hv]
          by_cases hc : hasCtrlKw (lines.get ⟨i, hg.2⟩)
          · simp only [hc, if_true]
            rw [ih (i + 1) (findBlockEnd lines i) (by omega),
              ih (findBlockEnd lines i + 1) e (by omega)]
          · rw [Bool.not_eq_true] at hc
            simp only [hc]
            rw [if_neg (show ¬(false = true) by decide),
              if_neg (show ¬(false = true) by decide)]
            rw [ih (i + 1) e (by omega)]
    · rw [dif_neg hg, dif_neg hg]

theorem parseTopLoop_fuel (lines : List (List Char)) :
    ∀ (fuel i e : Nat), lines.length < fuel + i →
      parseTopLoop lines (fuel + 1) i e = parseTopLoop lines fuel i e := by
  intro fuel
  induction fuel with
  | zero =>
    intro i e h
    rw [parseTopLoop, parseTopLoop]
    rw [dif_neg]
    intro hg
    omega
  | succ fuel ih =>
    intro i e h
    rw [parseTopLoop]
    conv_rhs => rw [parseTopLoop]
    by_cases hg : i ≤ e ∧ i < lines.length
    · rw [dif_pos hg, dif_pos hg]
      have hbe := findBlockEnd_ge lines i hg.2
      cases hm : matchClassName (lines.get ⟨i, hg.2⟩) with
      | some cname =>
        simp only [hm]
        rw [parseBlockLoop_fuel lines fuel (i + 1) (findBlockEnd lines i) (by omega),
          ih (findBlockEnd lines i + 1) e (by omega)]
      | none =>
        cases ha : matchActorName (lines.get ⟨i, hg.2⟩) with
        | some aname =>
          simp only [hm, ha]
          rw [parseBlockLoop_fuel lines fuel (i + 1) (findBlockEnd lines i) (by omega),
            ih (findBlockEnd lines i + 1) e (by omega)]
        | none =>
          simp only [hm, ha]
          rw [ih (i + 1) e (by omega)]
    · rw [dif_neg hg, dif_neg hg]

/-! ## Claim C1 -/

/-- C1, counterexample.  The claim states the full span invariant:
`startLine <= line <= endLine`, children's spans contained in the
parent's span, and siblings ascending by `startLine` without
overlaps.  It fails on `"class A(x: Int) { var y = 1 }"` (three
lines): `parseArguments` runs *after* `parseBlockContent`, so the
parameter child `x` (span `[0,0]`) is appended after the body child
`y` (span `[1,1]`) and the children are not in ascending `startLine`
order. -/
theorem C1_counterexample :
    fullInvariant (parse ("class A(x: Int) \x7b" ++ "\n" ++ "var y = 1" ++ "\n" ++ "\x7d").data) = false := by
  decide

/-- C1, amended.  What the parser does guarantee, for every input
text and every node of the returned tree: `startLine ≤ line ≤
endLine`, and every child's `startLine` lies inside the parent's
`[startLine, endLine]` span.  The remaining parts of the claimed
invariant do not hold: parameter children are appended after body
children while carrying the header's line (breaking the ascending
sibling order, and two parameters of one header occupy the same
span), and a nested block's brace scan may run past its parent's end
line (so a child's `endLine` can exceed the parent's `endLine`). -/
theorem C1_span_invariant_amended (text : List Char) :
    spanOK (parse text) = true := by
  unfold parse parseLines
  simp only [spanOK, Bool.and_eq_true, decide_eq_true_eq]
  exact ⟨⟨le_refl 0, Nat.zero_le _⟩, parseTopLoop_ok _ _ _ _⟩

/-! ## Claim C7 -/

theorem splitOnChar_no_sep (sep : Char) :
    ∀ l : List Char, (∀ c ∈ l, c ≠ sep) → splitOnChar sep l = [l]
  | [], _ => rfl
  | c :: cs, h => by
    simp only [splitOnChar]
    rw [if_neg (h c (List.mem_cons_self c cs))]
    rw [splitOnChar_no_sep sep cs (fun d hd => h d (List.mem_cons_of_mem c hd))]
    rfl

theorem isIdStart_isWordChar {c : Char} (h : isIdStart c = true) :
    isWordChar c = true := by
  simp only [isIdStart, Bool.or_eq_true] at h
  simp only [isWordChar, Bool.or_eq_true]
  rcases h with h | h
  · exact Or.inl (Or.inl h)
  · exact Or.inr h

/-- Every string matched by the parameter pattern consists of word
characters only (it is `[a-zA-Z_][a-zA-Z0-9_]*`). -/
theorem argScan_words :
    ∀ (l : List Char) (lb : Bool) (m : List Char), m ∈ argScan lb l →
      ∀ ch ∈ m, isWordChar ch = true := by
  intro l
  induction l with
  | nil => intro lb m hm; simp [argScan] at hm
  | cons c cs ih =>
    intro lb m hm
    simp only [argScan] at hm
    by_cases hc : (lb && isIdStart c) = true
    · rw [if_pos hc] at hm
      split at hm
      · rcases List.mem_cons.mp hm with hm' | hm'
        · subst hm'
          intro ch hch
          rcases List.mem_cons.mp hch with hch' | hch'
          · subst hch'
            exact isIdStart_isWordChar (by
              simp only [Bool.and_eq_true] at hc; exact hc.2)
          · exact List.mem_takeWhile_imp hch'
        · exact ih _ m hm'
      · exact ih _ m hm
    · rw [if_neg hc] at hm
      exact ih _ m hm

/-- Shape check used by the amended C7: every node is a variable node
whose `line`, `startLine` and `endLine` equal the header line and
which has no children. -/
def argShape (k : Nat) : NodeList → Bool
  | .nil => true
  | .cons c cs =>
    decide (c.kind = .var) && decide (c.line = k) && decide (c.startLine = k) &&
      decide (c.endLine = k) &&
      (match c.children with
       | .nil => true
       | .cons _ _ => false) && argShape k cs

theorem argNodesOf_length (k : Nat) :
    ∀ ms : List (List Char), (argNodesOf ms k).length = ms.length
  | [] => rfl
  | _ :: rest => by
    simp only [argNodesOf, NodeList.length, argNodesOf_length k rest,
      List.length_cons]

theorem argNodesOf_shape (k : Nat) :
    ∀ ms : List (List Char), argShape k (argNodesOf ms k) = true
  | [] => rfl
  | m :: rest => by
    simp only [argNodesOf, argShape, ASTNode.kind, ASTNode.line, ASTNode.startLine,
      ASTNode.endLine, ASTNode.children, Bool.and_eq_true, decide_eq_true_eq]
    refine ⟨⟨⟨⟨⟨?_, ?_⟩, ?_⟩, ?_⟩, ?_⟩, argNodesOf_shape k rest⟩ <;> trivial

/-- C7, counterexample.  The claim says a header with `n` parameter
matches yields `n` variable children.  The header
`fun f(x: Int, y: String) {` has two matches of the parameter
pattern, but the first revision of `Parser.parseArguments` (which
splits only the first match on commas) creates a single child. -/
theorem C7_counterexample :
    (argMatches ("fun f(x: Int, y: String) \x7b").data).length = 2 ∧
      (parseArgumentsV1 ("fun f(x: Int, y: String) \x7b").data 0).length ≠ 2 := by
  decide

/-- C7, amended.  The second revision of `parseArguments` attaches
exactly one variable child per match of the parameter pattern — each
with `line = startLine = endLine` equal to the header's line and no
children — as the claim states.  The first revision instead attaches
exactly one child (built from the first match) whenever at least one
parameter matches, and none otherwise. -/
theorem C7_parameter_extraction_amended (line : List Char) (k : Nat) :
    (parseArgumentsV2 line k).length = (argMatches line).length ∧
      argShape k (parseArgumentsV2 line k) = true ∧
      (argMatches line = [] → parseArgumentsV1 line k = .nil) ∧
      (argMatches line ≠ [] → (parseArgumentsV1 line k).length = 1) := by
  refine ⟨argNodesOf_length k _, argNodesOf_shape k _, ?_, ?_⟩
  · intro h
    unfold parseArgumentsV1
    rw [h]
  · intro h
    unfold parseArgumentsV1
    rcases hm : argMatches line with _ | ⟨m, ms⟩
    · exact absurd hm h
    · have hwords : ∀ ch ∈ m, isWordChar ch = true := by
        intro ch hch
        refine argScan_words line false m ?_ ch hch
        rw [argMatches] at hm
        rw [hm]
        exact List.mem_cons_self m ms
      have hnc : ∀ c ∈ m, c ≠ ',' := by
        intro c hc heq
        have hw := hwords c hc
        subst heq
        exact absurd hw (by decide)
      show (argNodesOf (splitOnChar ',' m) k).length = 1
      rw [splitOnChar_no_sep ',' m hnc]
      rfl

/-- C7, witness for the amended theorem at the concrete header
`fun f(x: Int, y: String) {`. -/
theorem C7_parameter_extraction_amended_witness :
    (parseArgumentsV2 ("fun f(x: Int, y: String) \x7b").data 3).length =
        (argMatches ("fun f(x: Int, y: String) \x7b").data).length ∧
      argMatches ("fun f(x: Int, y: String) \x7b").data ≠ [] ∧
      (parseArgumentsV1 ("fun f(x: Int, y: String) \x7b").data 3).length = 1 := by
  have h := C7_parameter_extraction_amended ("fun f(x: Int, y: String) \x7b").data 3
  exact ⟨h.1, by decide, h.2.2.2 (by decide)⟩

/-! ## Joining documents from lines

`joinSep sep ls` is the document whose lines are `ls`, separated by
`sep` — used to state claims about `parse` on documents with a given
line structure (`\n` versus `\r\n` endings). -/

def joinSep (sep : List Char) : List (List Char) → List Char
  | [] => []
  | [l] => l
  | l :: ls => l ++ sep ++ joinSep sep ls

theorem splitOnChar_append (sep : Char) :
    ∀ (l t : List Char), (∀ c ∈ l, c ≠ sep) →
      splitOnChar sep (l ++ sep :: t) = l :: splitOnChar sep t
  | [], t, _ => by
    simp [splitOnChar]
  | c :: l, t, h => by
    have ih := splitOnChar_append sep l t (fun d hd => h d (List.mem_cons_of_mem c hd))
    rw [List.cons_append, splitOnChar, ih, if_neg (h c (List.mem_cons_self c l))]
    rfl

theorem splitNL_joinLF :
    ∀ ls : List (List Char), ls ≠ [] → (∀ l ∈ ls, ('\n' : Char) ∉ l) →
      splitNL (joinSep ['\n'] ls) = ls
  | [], hne, _ => absurd rfl hne
  | [l], _, h => by
    simp only [joinSep, splitNL]
    exact splitOnChar_no_sep '\n' l (fun c hc he => h l (List.mem_singleton_self l) (he ▸ hc))
  | l :: l2 :: ls, _, h => by
    have hj : joinSep ['\n'] (l :: l2 :: ls) = l ++ '\n' :: joinSep ['\n'] (l2 :: ls) := by
      simp [joinSep]
    unfold splitNL
    rw [hj, splitOnChar_append '\n' l _ (fun c hc he => h l (List.mem_cons_self l _) (he ▸ hc))]
    have := splitNL_joinLF (l2 :: ls) (by simp) (fun x hx => h x (List.mem_cons_of_mem l hx))
    unfold splitNL at this
    rw [this]

theorem splitNL_joinCRLF :
    ∀ ls : List (List Char), ls ≠ [] → (∀ l ∈ ls, ('\n' : Char) ∉ l) →
      splitNL (joinSep ['\r', '\n'] ls) = mapExceptLast (fun l => l ++ ['\r']) ls
  | [], hne, _ => absurd rfl hne
  | [l], _, h => by
    simp only [joinSep, splitNL, mapExceptLast]
    exact splitOnChar_no_sep '\n' l (fun c hc he => h l (List.mem_singleton_self l) (he ▸ hc))
  | l :: l2 :: ls, _, h => by
    have hj : joinSep ['\r', '\n'] (l :: l2 :: ls) =
        (l ++ ['\r']) ++ '\n' :: joinSep ['\r', '\n'] (l2 :: ls) := by
      simp [joinSep]
    unfold splitNL
    rw [hj, splitOnChar_append '\n' (l ++ ['\r']) _ (by
      intro c hc he
      rcases List.mem_append.mp hc with hc' | hc'
      · exact h l (List.mem_cons_self l _) (he ▸ hc')
      · simp only [List.mem_singleton] at hc'
        subst hc'
        exact absurd he (by decide))]
    have := splitNL_joinCRLF (l2 :: ls) (by simp) (fun x hx => h x (List.mem_cons_of_mem l hx))
    unfold splitNL at this
    rw [this]
    rfl

/-! ## Claim C2 -/

theorem braceLine_clean (bc : Int) (fs : Bool) :
    ∀ l : List Char, ('{' : Char) ∉ l → ('}' : Char) ∉ l →
      braceLine bc fs l = .inl (bc, fs)
  | [], _, _ => rfl
  | c :: cs, h1, h2 => by
    have hc1 : ¬(c = '{') := fun he => h1 (he ▸ List.mem_cons_self c cs)
    have hc2 : ¬(c = '}') := fun he => h2 (he ▸ List.mem_cons_self c cs)
    simp only [braceLine, if_neg hc1, if_neg hc2]
    exact braceLine_clean bc fs cs (fun hm => h1 (List.mem_cons_of_mem c hm))
      (fun hm => h2 (List.mem_cons_of_mem c hm))

theorem fbeGo_clean (total : Nat) :
    ∀ (ls : List (List Char)) (i : Nat) (bc : Int) (fs : Bool),
      (∀ l ∈ ls, ('{' : Char) ∉ l ∧ ('}' : Char) ∉ l) →
      fbeGo total ls i bc fs = total - 1
  | [], _, _, _, _ => rfl
  | l :: ls, i, bc, fs, h => by
    have hb := braceLine_clean bc fs l (h l (List.mem_cons_self l ls)).1
      (h l (List.mem_cons_self l ls)).2
    rw [fbeGo, hb]
    exact fbeGo_clean total ls (i + 1) bc fs (fun x hx => h x (List.mem_cons_of_mem l hx))

/-- C2.  A document whose first line is the unterminated block header
`class C {` and whose remaining lines contain no braces at all (so
the brace count never returns to zero) still parses into a tree —
`parse` is total by construction, no failure channel exists — and the
class node's `endLine` is the index of the document's last line,
`rest.length`.  The root has that single class child because the scan
resumes past the block end, which is already the last line. -/
theorem C2_unterminated_block (rest : List (List Char))
    (h : ∀ l ∈ rest, ('\n' : Char) ∉ l ∧ ('{' : Char) ∉ l ∧ ('}' : Char) ∉ l) :
    ∃ body : NodeList,
      parse (joinSep ['\n'] ("class C \x7b".data :: rest)) =
        .mk .program "root" 0 0 rest.length
          (.cons (.mk .class_ "C" 0 0 rest.length body) .nil) := by
  have hsplit : splitNL (joinSep ['\n'] ("class C \x7b".data :: rest)) =
      "class C \x7b".data :: rest := by
    refine splitNL_joinLF _ (by simp) ?_
    intro l hl
    rcases List.mem_cons.mp hl with hl' | hl'
    · subst hl'
      decide
    · exact (h l hl').1
  have hbe : findBlockEnd ("class C \x7b".data :: rest) 0 = rest.length := by
    unfold findBlockEnd
    rw [List.drop_zero, fbeGo]
    have hb : braceLine 0 false ("class C \x7b".data) = Sum.inl (1, true) := by rfl
    rw [hb]
    show fbeGo ("class C \x7b".data :: rest).length rest 1 1 true = rest.length
    rw [fbeGo_clean _ rest 1 1 true (fun l hl => ⟨(h l hl).2.1, (h l hl).2.2⟩)]
    simp
  have hcm : matchClassName ("class C \x7b".data) = some ['C'] := by rfl
  have htail : parseTopLoop ("class C \x7b".data :: rest) (rest.length + 1)
      (rest.length + 1) rest.length = .nil := by
    rw [parseTopLoop, dif_neg]
    intro hg
    simp only [List.length_cons] at hg
    omega
  unfold parse
  rw [hsplit]
  unfold parseLines
  simp only [List.length_cons, Nat.add_sub_cancel]
  rw [parseTopLoop]
  rw [dif_pos (by constructor; exact Nat.zero_le _; simp)]
  simp only [List.get_cons_zero, hcm]
  rw [hbe, htail]
  exact ⟨_, rfl⟩

/-- C2, witness: the two-line document `class C {` / `var a = 1`
(no closing brace) parses with the class node ending at line 1, the
last line. -/
theorem C2_unterminated_block_witness :
    (∀ l ∈ [("var a = 1").data],
        ('\n' : Char) ∉ l ∧ ('{' : Char) ∉ l ∧ ('}' : Char) ∉ l) ∧
      ∃ body : NodeList,
        parse (joinSep ['\n'] ("class C \x7b".data :: [("var a = 1").data])) =
          .mk .program "root" 0 0 1
            (.cons (.mk .class_ "C" 0 0 1 body) .nil) :=
  ⟨by decide, C2_unterminated_block [("var a = 1").data] (by decide)⟩

/-! ## Claim C8: carriage-return invariance of the parser

With `\r\n` endings, `text.split("\n")` leaves a trailing `\r` on
every line but the last.  The lemmas below show that appending a
trailing carriage return to a line changes the result of none of the
matchers the structural parser uses. -/

/-- Relation between a line of the `\n` document and the
corresponding line of the `\r\n` document. -/
def crLine (a b : List Char) : Prop := b = a ∨ b = a ++ ['\r']

theorem takeWhile_app (p : Char → Bool) (a : Char) (ha : p a = false) :
    ∀ xs : List Char, List.takeWhile p (xs ++ [a]) = List.takeWhile p xs
  | [] => by simp [List.takeWhile_cons, ha]
  | x :: xs => by
    simp only [List.cons_append, List.takeWhile_cons]
    by_cases hx : p x = true
    · simp [hx, takeWhile_app p a ha xs]
    · simp [hx]

theorem dropWhile_app (p : Char → Bool) (a : Char) :
    ∀ xs : List Char, List.dropWhile p (xs ++ [a]) =
      (match List.dropWhile p xs with
       | [] => if p a = true then [] else [a]
       | d :: ds => d :: (ds ++ [a]))
  | [] => by
    simp only [List.nil_append, List.dropWhile_cons, List.dropWhile_nil]
  | x :: xs => by
    simp only [List.cons_append, List.dropWhile_cons]
    by_cases hx : p x = true
    · simp only [hx, if_true]
      exact dropWhile_app p a xs
    · simp [hx]

theorem takeLit_app_r :
    ∀ (kw cs : List Char), ('\r' : Char) ∉ kw →
      takeLit kw (cs ++ ['\r']) = (takeLit kw cs).map (fun r => r ++ ['\r'])
  | [], cs, _ => by simp [takeLit]
  | p :: ps, [], h => by
    simp only [takeLit, List.nil_append]
    rw [if_neg]
    · rfl
    · intro he
      exact h (by rw [he]; exact List.mem_cons_self p ps)
  | p :: ps, c :: cs, h => by
    simp only [takeLit, List.cons_append]
    by_cases hc : c = p
    · rw [if_pos hc, if_pos hc]
      exact takeLit_app_r ps cs (fun hm => h (List.mem_cons_of_mem p hm))
    · rw [if_neg hc, if_neg hc]
      rfl

theorem kwIdAt_fst_app_r (kw : List Char) (hk : ('\r' : Char) ∉ kw) (cs : List Char) :
    (kwIdAt kw (cs ++ ['\r'])).map Prod.fst = (kwIdAt kw cs).map Prod.fst := by
  unfold kwIdAt
  rw [takeLit_app_r kw cs hk]
  cases htl : takeLit kw cs with
  | none => rfl
  | some rest =>
    simp only [Option.map_some']
    cases rest with
    | nil => rfl
    | cons c rest' =>
      simp only [List.cons_append]
      by_cases hsp : isSpaceJS c = true
      · rw [if_pos hsp, if_pos hsp]
        have hd := dropWhile_app isSpaceJS '\r' (c :: rest')
        rw [show ((c :: rest') ++ ['\r'] : List Char) = c :: (rest' ++ ['\r']) from rfl] at hd
        rw [hd]
        cases hdc : List.dropWhile isSpaceJS (c :: rest') with
        | nil => rfl
        | cons d ds =>
          by_cases hid : isIdStart d = true
          · simp only [if_pos hid, takeWhile_app isWordChar '\r' (by decide) ds,
              Option.map_some']
          · simp only [if_neg hid, Option.map_none']
      · rw [if_neg hsp, if_neg hsp]

theorem scanPos_app_r (f : List Char → Option α) (b : Bool)
    (hf : ∀ cs, f (cs ++ ['\r']) = f cs) (hnil : f [] = none) :
    ∀ (prev : Option Char) (l : List Char),
      scanPos f b prev (l ++ ['\r']) = scanPos f b prev l
  | prev, [] => by
    show (match (if boundaryOK b prev then f ['\r'] else none) with
          | some r => some r
          | none => scanPos f b (some '\r') []) = none
    have hfr : f ['\r'] = none := by
      have h := hf []
      simpa using h.trans hnil
    rw [hfr]
    cases hb : boundaryOK b prev <;> rfl
  | prev, c :: cs => by
    simp only [List.cons_append, scanPos, List.append_eq]
    rw [← List.cons_append, hf (c :: cs), scanPos_app_r f b hf hnil (some c) cs]

theorem matchClassName_cr {a b : List Char} (h : crLine a b) :
    matchClassName b = matchClassName a := by
  rcases h with rfl | rfl
  · rfl
  · exact scanPos_app_r _ true
      (fun cs => by rw [kwIdAt_fst_app_r "class".data (by decide) cs])
      (by rfl) none a

theorem matchActorName_cr {a b : List Char} (h : crLine a b) :
    matchActorName b = matchActorName a := by
  rcases h with rfl | rfl
  · rfl
  · exact scanPos_app_r _ true
      (fun cs => by rw [kwIdAt_fst_app_r "actor".data (by decide) cs])
      (by rfl) none a

theorem matchFunName_cr {a b : List Char} (h : crLine a b) :
    matchFunName b = matchFunName a := by
  rcases h with rfl | rfl
  · rfl
  · exact scanPos_app_r _ false
      (fun cs => by rw [kwIdAt_fst_app_r "fun".data (by decide) cs])
      (by rfl) none a

theorem matchVarValName_cr {a b : List Char} (h : crLine a b) :
    matchVarValName b = matchVarValName a := by
  rcases h with rfl | rfl
  · rfl
  · refine scanPos_app_r _ true ?_ (by rfl) none a
    intro cs
    rw [show ((kwIdAt "var".data (cs ++ ['\r'])).map (·.1)) =
        ((kwIdAt "var".data cs).map (·.1)) from kwIdAt_fst_app_r "var".data (by decide) cs,
      show ((kwIdAt "val".data (cs ++ ['\r'])).map (·.1)) =
        ((kwIdAt "val".data cs).map (·.1)) from kwIdAt_fst_app_r "val".data (by decide) cs]

/-- A `match` whose patterns are `':' :: _` and a default only
inspects the head of the scrutinee. -/
theorem match_colon_head {α : Type} (A B : α) {e : Char} {es : List Char} (he : ¬(e = ':')) :
    (match (e :: es) with
     | ':' :: _ => A
     | _ => B) = B := by
  split
  · rename_i h
    injection h with h1 h2
    exact absurd h1 he
  · rfl

theorem argScan_app_r :
    ∀ (l : List Char) (lb : Bool), argScan lb (l ++ ['\r']) = argScan lb l := by
  intro l
  induction l with
  | nil =>
    intro lb
    show argScan lb ['\r'] = []
    have h1 : (lb && isIdStart '\r') = false := by
      cases lb <;> decide
    simp [argScan, h1]
  | cons c cs ih =>
    intro lb
    simp only [List.cons_append, argScan]
    by_cases hc : (lb && isIdStart c) = true
    · rw [if_pos hc, if_pos hc]
      simp only [List.append_eq]
      have hword := dropWhile_app isWordChar '\r' cs
      have hscrut : ((cs ++ ['\r']).dropWhile isWordChar).dropWhile isSpaceJS =
          (match (cs.dropWhile isWordChar).dropWhile isSpaceJS with
           | [] => ([] : List Char)
           | e :: es => e :: (es ++ ['\r'])) := by
        rw [hword]
        cases h1 : cs.dropWhile isWordChar with
        | nil =>
          simp only
          rfl
        | cons d ds =>
          simp only
          have hsp := dropWhile_app isSpaceJS '\r' (d :: ds)
          rw [show ((d :: ds) ++ ['\r'] : List Char) = d :: (ds ++ ['\r']) from rfl] at hsp
          rw [hsp]
          cases h2 : List.dropWhile isSpaceJS (d :: ds) with
          | nil => rfl
          | cons e es => rfl
      rw [hscrut]
      cases h2 : (cs.dropWhile isWordChar).dropWhile isSpaceJS with
      | nil =>
        show argScan (updateLb lb c) (cs ++ ['\r']) = _
        rw [ih (updateLb lb c)]
      | cons e es =>
        by_cases he : e = ':'
        · subst he
          show ((c :: (cs ++ ['\r']).takeWhile isWordChar) :: argScan false (cs ++ ['\r'])) = _
          rw [takeWhile_app isWordChar '\r' (by decide) cs, ih false]
          rfl
        · show (match (e :: (es ++ ['\r'])) with
              | ':' :: _ => ((c :: (cs ++ ['\r']).takeWhile isWordChar) :: argScan false (cs ++ ['\r']))
              | _ => argScan (updateLb lb c) (cs ++ ['\r'])) =
            (match (e :: es) with
              | ':' :: _ => ((c :: cs.takeWhile isWordChar) :: argScan false cs)
              | _ => argScan (updateLb lb c) cs)
          rw [match_colon_head _ _ he, match_colon_head _ _ he, ih (updateLb lb c)]
    · rw [if_neg hc, if_neg hc]
      exact ih (updateLb lb c)

theorem containsSeq_app_r (pat : List Char) (hne : pat ≠ []) (hr : ('\r' : Char) ∉ pat) :
    ∀ l : List Char, containsSeq pat (l ++ ['\r']) = containsSeq pat l := by
  intro l
  induction l with
  | nil =>
    show containsSeq pat ['\r'] = containsSeq pat []
    rcases pat with _ | ⟨p, ps⟩
    · exact absurd rfl hne
    · show ((takeLit (p :: ps) ['\r']).isSome || containsSeq (p :: ps) []) =
        (takeLit (p :: ps) []).isSome
      have hp : ¬('\r' = p) := fun he => hr (by rw [he]; exact List.mem_cons_self p ps)
      simp [takeLit, containsSeq, if_neg hp]
  | cons c cs ih =>
    show ((takeLit pat ((c :: cs) ++ ['\r'])).isSome || containsSeq pat (cs ++ ['\r'])) =
      ((takeLit pat (c :: cs)).isSome || containsSeq pat cs)
    rw [takeLit_app_r pat (c :: cs) hr, ih]
    cases takeLit pat (c :: cs) <;> rfl

theorem hasCtrlKw_cr {a b : List Char} (h : crLine a b) : hasCtrlKw b = hasCtrlKw a := by
  rcases h with rfl | rfl
  · rfl
  · unfold hasCtrlKw
    rw [containsSeq_app_r "while".data (by decide) (by decide) a,
      containsSeq_app_r "if".data (by decide) (by decide) a,
      containsSeq_app_r "else".data (by decide) (by decide) a,
      containsSeq_app_r "for".data (by decide) (by decide) a]

theorem argMatches_cr {a b : List Char} (h : crLine a b) : argMatches b = argMatches a := by
  rcases h with rfl | rfl
  · rfl
  · exact argScan_app_r a false

theorem parseArgumentsV2_cr {a b : List Char} (h : crLine a b) (k : Nat) :
    parseArgumentsV2 b k = parseArgumentsV2 a k := by
  unfold parseArgumentsV2
  rw [argMatches_cr h]

theorem braceLine_app_r :
    ∀ (l : List Char) (bc : Int) (fs : Bool),
      braceLine bc fs (l ++ ['\r']) = braceLine bc fs l
  | [], bc, fs => by rfl
  | c :: cs, bc, fs => by
    simp only [List.cons_append, braceLine]
    by_cases h1 : c = '{'
    · rw [if_pos h1, if_pos h1]
      exact braceLine_app_r cs (bc + 1) true
    · rw [if_neg h1, if_neg h1]
      by_cases h2 : c = '}'
      · rw [if_pos h2, if_pos h2]
        by_cases h3 : fs ∧ bc - 1 = 0
        · rw [if_pos h3, if_pos h3]
        · rw [if_neg h3, if_neg h3]
          exact braceLine_app_r cs (bc - 1) fs
      · rw [if_neg h2, if_neg h2]
        exact braceLine_app_r cs bc fs

theorem braceLine_cr {a b : List Char} (h : crLine a b) (bc : Int) (fs : Bool) :
    braceLine bc fs b = braceLine bc fs a := by
  rcases h with rfl | rfl
  · rfl
  · exact braceLine_app_r a bc fs

theorem fbeGo_rel (total : Nat) :
    ∀ {lsA lsB : List (List Char)}, List.Forall₂ crLine lsA lsB →
      ∀ (i : Nat) (bc : Int) (fs : Bool),
        fbeGo total lsB i bc fs = fbeGo total lsA i bc fs := by
  intro lsA lsB h
  induction h with
  | nil => intro i bc fs; rfl
  | cons hab htail ih =>
    intro i bc fs
    simp only [fbeGo]
    rw [braceLine_cr hab]
    cases braceLine bc fs _ with
    | inr u => rfl
    | inl st => exact ih (i + 1) st.1 st.2

theorem findBlockEnd_rel {lsA lsB : List (List Char)}
    (h : List.Forall₂ crLine lsA lsB) (s : Nat) :
    findBlockEnd lsB s = findBlockEnd lsA s := by
  unfold findBlockEnd
  rw [← h.length_eq]
  exact fbeGo_rel lsA.length (List.forall₂_drop s h) s 0 false

theorem parseBlockLoop_rel {lsA lsB : List (List Char)}
    (hrel : List.Forall₂ crLine lsA lsB) :
    ∀ (fuel i e : Nat), parseBlockLoop lsB fuel i e = parseBlockLoop lsA fuel i e := by
  have hlen : lsA.length = lsB.length := hrel.length_eq
  intro fuel
  induction fuel with
  | zero => intro i e; rfl
  | succ fuel ih =>
    intro i e
    rw [parseBlockLoop]
    conv_rhs => rw [parseBlockLoop]
    by_cases hg : i ≤ e ∧ i < lsA.length
    · have hgB : i ≤ e ∧ i < lsB.length := ⟨hg.1, hlen ▸ hg.2⟩
      rw [dif_pos hgB, dif_pos hg]
      have hline : crLine (lsA.get ⟨i, hg.2⟩) (lsB.get ⟨i, hgB.2⟩) :=
        hrel.get hg.2 hgB.2
      have hfbe := findBlockEnd_rel hrel
      cases hm : matchFunName (lsA.get ⟨i, hg.2⟩) with
      | some fname =>
        simp only [matchFunName_cr hline, hm, hfbe, parseArgumentsV2_cr hline, ih]
      | none =>
        cases hv : matchVarValName (lsA.get ⟨i, hg.2⟩) with
        | some vname =>
          simp only [matchFunName_cr hline, hm, matchVarValName_cr hline, hv, ih]
        | none =>
          simp only [matchFunName_cr hline, hm, matchVarValName_cr hline, hv,
            hasCtrlKw_cr hline, hfbe, ih]
    · have hgB : ¬(i ≤ e ∧ i < lsB.length) := fun hx => hg ⟨hx.1, hlen ▸ hx.2⟩
      rw [dif_neg hgB, dif_neg hg]

theorem parseTopLoop_rel {lsA lsB : List (List Char)}
    (hrel : List.Forall₂ crLine lsA lsB) :
    ∀ (fuel i e : Nat), parseTopLoop lsB fuel i e = parseTopLoop lsA fuel i e := by
  have hlen : lsA.length = lsB.length := hrel.length_eq
  intro fuel
  induction fuel with
  | zero => intro i e; rfl
  | succ fuel ih =>
    intro i e
    rw [parseTopLoop]
    conv_rhs => rw [parseTopLoop]
    by_cases hg : i ≤ e ∧ i < lsA.length
    · have hgB : i ≤ e ∧ i < lsB.length := ⟨hg.1, hlen ▸ hg.2⟩
      rw [dif_pos hgB, dif_pos hg]
      have hline : crLine (lsA.get ⟨i, hg.2⟩) (lsB.get ⟨i, hgB.2⟩) :=
        hrel.get hg.2 hgB.2
      have hfbe := findBlockEnd_rel hrel
      cases hm : matchClassName (lsA.get ⟨i, hg.2⟩) with
      | some cname =>
        simp only [matchClassName_cr hline, hm, hfbe, parseArgumentsV2_cr hline,
          parseBlockLoop_rel hrel, ih]
      | none =>
        cases ha : matchActorName (lsA.get ⟨i, hg.2⟩) with
        | some aname =>
          simp only [matchClassName_cr hline, hm, matchActorName_cr hline, ha, hfbe,
            parseArgumentsV2_cr hline, parseBlockLoop_rel hrel, ih]
        | none =>
          simp only [matchClassName_cr hline, hm, matchActorName_cr hline, ha, ih]
    · have hgB : ¬(i ≤ e ∧ i < lsB.length) := fun hx => hg ⟨hx.1, hlen ▸ hx.2⟩
      rw [dif_neg hgB, dif_neg hg]

theorem parseLines_rel {lsA lsB : List (List Char)}
    (hrel : List.Forall₂ crLine lsA lsB) :
    parseLines lsB = parseLines lsA := by
  unfold parseLines
  rw [← hrel.length_eq]
  rw [parseTopLoop_rel hrel]

theorem mapExceptLast_cr :
    ∀ ls : List (List Char),
      List.Forall₂ crLine ls (mapExceptLast (fun l => l ++ ['\r']) ls)
  | [] => .nil
  | [_] => .cons (Or.inl rfl) .nil
  | _ :: l2 :: ls => .cons (Or.inr rfl) (mapExceptLast_cr (l2 :: ls))

/-! ## Claim C8 -/

/-- C8.  For every document given as a list of lines (none containing
a newline), parsing the `\r\n`-joined text returns a tree equal —
same kinds, names, line numbers, spans and child order — to parsing
the `\n`-joined text: splitting on `"\n"` leaves a trailing `\r`
on every line but the last, and no matcher of the parser is affected
by a trailing carriage return. -/
theorem C8_line_ending_invariance (ls : List (List Char))
    (h : ∀ l ∈ ls, ('\n' : Char) ∉ l) :
    parse (joinSep ['\r', '\n'] ls) = parse (joinSep ['\n'] ls) := by
  rcases ls with _ | ⟨l, ls'⟩
  · rfl
  · unfold parse
    rw [splitNL_joinCRLF _ (by simp) h, splitNL_joinLF _ (by simp) h]
    exact parseLines_rel (mapExceptLast_cr (l :: ls'))

/-- C8, witness: the two-line document `class A {` / `}` parses to
the same tree under both line-ending conventions. -/
theorem C8_line_ending_invariance_witness :
    (∀ l ∈ ["class A \x7b".data, "\x7d".data], ('\n' : Char) ∉ l) ∧
      parse (joinSep ['\r', '\n'] ["class A \x7b".data, "\x7d".data]) =
        parse (joinSep ['\n'] ["class A \x7b".data, "\x7d".data]) :=
  ⟨by decide, C8_line_ending_invariance ["class A \x7b".data, "\x7d".data] (by decide)⟩

/-! ## The inference engine (src/inlay.ts, second module)

The `TypeInfo` of this engine revision: kinds as in its `TypeKind`
union, an optional generics array and an optional display name.  The
generics field is represented with the mutually inductive `GenOpt` /
`GList` so that the recursive functions over `TypeInfo` are
structurally recursive and compute inside the kernel; `GenOpt.none`
is JavaScript `undefined` (no generics array), `GenOpt.some .nil` an
empty array. -/

/-! ### The symbol→type map

JavaScript `Map<string, V>` as an association list: `set` overwrites
in place or appends, `get` looks up. -/

def setEntry {V : Type} : List (String × V) → String → V → List (String × V)
  | [], n, t => [(n, t)]
  | (k, v) :: rest, n, t =>
    if k = n then (k, t) :: rest else (k, v) :: setEntry rest n t

def lookupT {V : Type} : List (String × V) → String → Option V
  | [], _ => Option.none
  | (k, v) :: rest, n => if k = n then Option.some v else lookupT rest n

namespace Inference

inductive TypeKind where
  | int | string | bool | list | map | set | function | custom | randomAny
  deriving DecidableEq, Repr

/-- The string the kind renders to in template literals (the TS kind
IS this string). -/
def kindStr : TypeKind → String
  | .int => "Int"
  | .string => "String"
  | .bool => "Bool"
  | .list => "List"
  | .map => "Map"
  | .set => "Set"
  | .function => "Function"
  | .custom => "Custom"
  | .randomAny => "RandomAny"

mutual
inductive TypeInfo where
  | mk (kind : TypeKind) (generics : GenOpt) (readonlyName : Option String)
  deriving Repr
inductive GenOpt where
  | none
  | some (ts : GList)
  deriving Repr
inductive GList where
  | nil
  | cons (t : TypeInfo) (ts : GList)
  deriving Repr
end

def TypeInfo.kind : TypeInfo → TypeKind
  | .mk k _ _ => k

def TypeInfo.generics : TypeInfo → GenOpt
  | .mk _ g _ => g

def TypeInfo.readonlyName : TypeInfo → Option String
  | .mk _ _ n => n

def GList.length : GList → Nat
  | .nil => 0
  | .cons _ ts => ts.length + 1

/-- `make(kind)` -/
def make (k : TypeKind) : TypeInfo := .mk k .none Option.none

/-- `make(kind, generics)` -/
def makeG (k : TypeKind) (gs : GList) : TypeInfo := .mk k (.some gs) Option.none

/-! `InferenceEngine.mergeTypes`: equal kinds merge their generics
pairwise when both carry generics arrays of equal length (dropping
the display name, as `make(a.kind, gens)` does), otherwise the left
side is returned; on a kind mismatch a `RandomAny` side yields the
other side, and two concrete kinds fall back to a `Custom` type whose
display name joins the kind strings with `|`. -/
mutual
def mergeTypes : TypeInfo → TypeInfo → TypeInfo
  | .mk ka ga na, .mk kb gb nb =>
    if ka = kb then
      match ga, gb with
      | .some la, .some lb =>
        if la.length = lb.length then .mk ka (.some (mergeGL la lb)) Option.none
        else .mk ka ga na
      | _, _ => .mk ka ga na
    else if ka = .randomAny then .mk kb gb nb
    else if kb = .randomAny then .mk ka ga na
    else .mk .custom .none (Option.some (kindStr ka ++ "|" ++ kindStr kb))
def mergeGL : GList → GList → GList
  | .cons a as, .cons b bs => .cons (mergeTypes a b) (mergeGL as bs)
  | _, _ => .nil
end

/-! `typeToString` on a present value: no generics (absent or empty
array) renders the display name or the kind string, otherwise
`Name<G1, G2, ...>` with the generics comma-joined. -/
mutual
def typeToString : TypeInfo → String
  | .mk k g n =>
    match g with
    | .none => n.getD (kindStr k)
    | .some .nil => n.getD (kindStr k)
    | .some (.cons g0 gs) =>
      n.getD (kindStr k) ++ "<" ++ typeToStringList (.cons g0 gs) ++ ">"
def typeToStringList : GList → String
  | .nil => ""
  | .cons g .nil => typeToString g
  | .cons g (.cons g2 gs) => typeToString g ++ ", " ++ typeToStringList (.cons g2 gs)
end

/-! ### The expression classifiers of `inferExpressionType` -/

/-- `^".*"$` (and with `'`): first and last character are the quote,
at least two characters, and `.` does not cross a newline. -/
def isQuoted (q : Char) (expr : List Char) : Bool :=
  match expr with
  | [] => false
  | c :: cs =>
    match cs.reverse with
    | [] => false
    | d :: mids => c = q && d = q && mids.all (fun x => !(x = '\n'))

/-- `^(true|false)$` -/
def isBoolLit (expr : List Char) : Bool :=
  decide (expr = "true".data) || decide (expr = "false".data)

/-- `^\d+(\.\d+)?$`, the engine's own numeric test (no sign). -/
def isUnsignedNum (expr : List Char) : Bool :=
  let ds := expr.takeWhile Char.isDigit
  let rest := expr.dropWhile Char.isDigit
  !ds.isEmpty &&
    (rest.isEmpty ||
      (match rest with
       | '.' :: fs => !fs.isEmpty && fs.all Char.isDigit
       | _ => false))

/-- `BUILTIN_TYPES.INT` of the pattern library:
`^[+-]?\d+(\.\d+)?$` — an optional sign in front. -/
def isIntLiteralPat (expr : List Char) : Bool :=
  match expr with
  | [] => false
  | c :: cs => if c = '+' || c = '-' then isUnsignedNum cs else isUnsignedNum expr

/-- Does `t` start with `.new`, optional whitespace, then `(`? -/
def dotNewParen (t : List Char) : Bool :=
  match takeLit ".new".data t with
  | Option.none => false
  | Option.some r =>
    match r.dropWhile isSpaceJS with
    | '(' :: _ => true
    | _ => false

/-- Is there a `>` in `t` — reachable by `.*`, so with no newline
before it — followed by `.new\s*(`? -/
def existsGtDotNew : List Char → Bool
  | [] => false
  | c :: cs =>
    if c = '\n' then false
    else if c = '>' && dotNewParen cs then true
    else existsGtDotNew cs

/-- `^\s*NAME(\s*<.*>)?\.new\s*\(` — the collection-constructor
test of the engine.  The second regex of each `||` pair in the source
(`^\s*NAME\.new\s*\(`) is subsumed by the no-generics branch.  In
the generics branch the greedy `.*>` succeeds exactly when some `>`
is followed by `.new\s*(`. -/
def ctorTest (name : List Char) (expr : List Char) : Bool :=
  match takeLit name (expr.dropWhile isSpaceJS) with
  | Option.none => false
  | Option.some rest =>
    (match rest.dropWhile isSpaceJS with
     | '<' :: t => existsGtDotNew t
     | _ => false)
    || dotNewParen rest

/-- `^[a-zA-Z_][a-zA-Z0-9_]*\(.*\)$` — call-or-identifier syntax. -/
def isFuncCallExpr (expr : List Char) : Bool :=
  match expr with
  | [] => false
  | c :: _ =>
    isIdStart c &&
    (match expr.dropWhile isWordChar with
     | '(' :: t =>
       (match t.reverse with
        | ')' :: mids => mids.all (fun x => !(x = '\n'))
        | _ => false)
     | _ => false)

/-- `InferenceEngine.inferExpressionType`, branch for branch in
source order; every fall-through ends in `RandomAny` (the call-or-
identifier branch also returns `RandomAny`). -/
def inferExpressionType (expr : List Char) : TypeInfo :=
  if isQuoted '"' expr || isQuoted '\'' expr then make .string
  else if isBoolLit expr then make .bool
  else if isUnsignedNum expr then make .int
  else if ctorTest "List".data expr then
    makeG .list (.cons (make .randomAny) .nil)
  else if ctorTest "MutableMap".data expr then
    makeG .map (.cons (make .randomAny) (.cons (make .randomAny) .nil))
  else if ctorTest "MutableSet".data expr then
    makeG .set (.cons (make .randomAny) .nil)
  else if isFuncCallExpr expr then make .randomAny
  else make .randomAny

/-! ### Declaration scan -/

/-- `\s*=\s*(.+)$` after the declared identifier.  The greedy
whitespace run is skipped and the rest of the line (at least one
character) is the value; when only whitespace follows the `=`, the
regex backtracks and `.+` captures the final whitespace character. -/
def eqValueAt (rest : List Char) : Option (List Char) :=
  match rest.dropWhile isSpaceJS with
  | '=' :: after =>
    let v := after.dropWhile isSpaceJS
    if v.isEmpty then
      match after.reverse with
      | [] => Option.none
      | c :: _ => Option.some [c]
    else Option.some v
  | _ => Option.none

/-- `\b(?:var|val)\s+([a-zA-Z_][a-zA-Z0-9_]*)\s*=\s*(.+)$` tried
at one position (the alternation tries `var` before `val`; both can
never match at the same position, so a failing `=`-part never
revisits the alternation). -/
def declNameValueAt (cs : List Char) : Option (List Char × List Char) :=
  match (kwIdAt "var".data cs).or (kwIdAt "val".data cs) with
  | Option.none => Option.none
  | Option.some (name, rest) => (eqValueAt rest).map (fun v => (name, v))

/-- The engine's `initRegex` (identical to the pattern library's
`DECLARATION.NAME_AND_VALUE_ONLY`, whose trailing `(.+)` is greedy to
the end of the line with or without `$`). -/
def matchDeclNameValue (line : List Char) : Option (List Char × List Char) :=
  scanPos declNameValueAt true Option.none line

/-- Strip a single trailing semicolon: `rhs.replace(/;$/, "")`. -/
def stripSemi (cs : List Char) : List Char :=
  match cs.reverse with
  | ';' :: rest => rest.reverse
  | _ => cs

/-- `InferenceEngine.scanInitializers`: for every line (trimmed)
matching the declaration pattern, the trimmed, semicolon-stripped
right-hand side is inferred and assigned (overwriting). -/
def scanInitializers : List (List Char) → List (String × TypeInfo) → List (String × TypeInfo)
  | [], types => types
  | raw :: rest, types =>
    let line := trimJS raw
    match matchDeclNameValue line with
    | Option.none => scanInitializers rest types
    | Option.some (name, rhs0) =>
      let rhs := stripSemi (trimJS rhs0)
      scanInitializers rest (setEntry types (String.mk name) (inferExpressionType rhs))

/-! ### Collection-usage scan -/

/-- Lazy capture `\s*(.+?)\s*target` applied after an opening
delimiter: skip the greedy whitespace run, then grow the capture one
character at a time until only whitespace separates it from `target`;
returns the capture and the text after `target`.  When everything up
to `target` is whitespace, the regex backtracks the leading `\s*` by
one character and the capture is that final whitespace character
(mirroring the engine's backtracking; deeper backtracking across an
earlier lazy group cannot change a successful match here). -/
def lazySplitGo (target : Char) : List Char → List Char → Option (List Char × List Char)
  | _, [] => Option.none
  | acc, c :: cs =>
    match cs.dropWhile isSpaceJS with
    | d :: ds =>
      if d = target then Option.some (acc ++ [c], ds)
      else lazySplitGo target (acc ++ [c]) cs
    | [] => lazySplitGo target (acc ++ [c]) cs

def lazySplit (target : Char) (t : List Char) : Option (List Char × List Char) :=
  let sp := t.takeWhile isSpaceJS
  let t1 := t.dropWhile isSpaceJS
  match lazySplitGo target [] t1 with
  | Option.some r => Option.some r
  | Option.none =>
    match t1 with
    | c :: cs =>
      if c = target ∧ ¬sp.isEmpty then
        match sp.reverse with
        | s :: _ => Option.some ([s], cs)
        | [] => Option.none
      else Option.none
    | [] => Option.none

/-- `(objName)\.method\s*\(` tried at one position: a maximal
identifier, the literal `.method`, optional whitespace, `(`.  Returns
the object name and the text after the parenthesis. -/
def objMethodAt (mname : List Char) (cs : List Char) : Option (List Char × List Char) :=
  match cs with
  | [] => Option.none
  | c :: _ =>
    if isIdStart c then
      match takeLit ('.' :: mname) (cs.dropWhile isWordChar) with
      | Option.none => Option.none
      | Option.some r2 =>
        match r2.dropWhile isSpaceJS with
        | '(' :: inner => Option.some (cs.takeWhile isWordChar, inner)
        | _ => Option.none
    else Option.none

/-- `addRegex`: `([a-zA-Z_][a-zA-Z0-9_]*)\.add\s*\(\s*(.+?)\s*\)` -/
def matchAdd (line : List Char) : Option (List Char × List Char) :=
  scanPos
    (fun cs =>
      (objMethodAt "add".data cs).bind fun oi =>
        (lazySplit ')' oi.2).map fun ar => (oi.1, ar.1))
    false Option.none line

/-- `putRegex`:
`([a-zA-Z_][a-zA-Z0-9_]*)\.put\s*\(\s*(.+?)\s*,\s*(.+?)\s*\)` -/
def matchPut (line : List Char) : Option (List Char × List Char × List Char) :=
  scanPos
    (fun cs =>
      (objMethodAt "put".data cs).bind fun oi =>
        (lazySplit ',' oi.2).bind fun kr =>
          (lazySplit ')' kr.2).map fun vr => (oi.1, kr.1, vr.1))
    false Option.none line

/-- `InferenceEngine.mergeListElementType` -/
def mergeListElementType (types : List (String × TypeInfo)) (listName : String)
    (elemType : TypeInfo) : List (String × TypeInfo) :=
  match lookupT types listName with
  | Option.none => setEntry types listName (makeG .list (.cons elemType .nil))
  | Option.some existing =>
    if existing.kind = .randomAny then
      setEntry types listName (makeG .list (.cons elemType .nil))
    else if existing.kind = .list then
      let cur :=
        match existing.generics with
        | .some (.cons g _) => g
        | _ => make .randomAny
      setEntry types listName (makeG .list (.cons (mergeTypes cur elemType) .nil))
    else types

/-- `InferenceEngine.mergeMapTypes` -/
def mergeMapTypes (types : List (String × TypeInfo)) (mapName : String)
    (keyType valType : TypeInfo) : List (String × TypeInfo) :=
  match lookupT types mapName with
  | Option.none => setEntry types mapName (makeG .map (.cons keyType (.cons valType .nil)))
  | Option.some existing =>
    if existing.kind = .randomAny then
      setEntry types mapName (makeG .map (.cons keyType (.cons valType .nil)))
    else if existing.kind = .map then
      let curKey :=
        match existing.generics with
        | .some (.cons g _) => g
        | _ => make .randomAny
      let curVal :=
        match existing.generics with
        | .some (.cons _ (.cons g _)) => g
        | _ => make .randomAny
      setEntry types mapName
        (makeG .map (.cons (mergeTypes curKey keyType) (.cons (mergeTypes curVal valType) .nil)))
    else types

/-- `InferenceEngine.scanCollectionUsages` (its `getRegex` is defined
in the source but never used, so it is not modelled): on each trimmed
line, a `name.add(x)` match merges the inferred argument type into
the receiver's element type, and a `name.put(k, v)` match merges the
key/value types. -/
def scanCollectionUsages : List (List Char) → List (String × TypeInfo) → List (String × TypeInfo)
  | [], types => types
  | raw :: rest, types =>
    let line := trimJS raw
    let t1 :=
      match matchAdd line with
      | Option.some oa => mergeListElementType types (String.mk oa.1) (inferExpressionType oa.2)
      | Option.none => types
    let t2 :=
      match matchPut line with
      | Option.some okv =>
        mergeMapTypes t1 (String.mk okv.1) (inferExpressionType okv.2.1)
          (inferExpressionType okv.2.2)
      | Option.none => t1
    scanCollectionUsages rest t2

/-! ### Binary-operator scan -/

/-- One operand of `binRegex`: `([a-zA-Z_][a-zA-Z0-9_]*|\d+)` —
identifier alternative first, then a digit run. -/
def operandTake (cs : List Char) : Option (List Char × List Char) :=
  match cs with
  | [] => Option.none
  | c :: _ =>
    if isIdStart c then Option.some (cs.takeWhile isWordChar, cs.dropWhile isWordChar)
    else if c.isDigit then Option.some (cs.takeWhile Char.isDigit, cs.dropWhile Char.isDigit)
    else Option.none

def isOpChar (c : Char) : Bool :=
  c = '+' || c = '-' || c = '*' || c = '/'

/-- `binRegex` at one position: operand, `\s*`, one of `+ - * /`,
`\s*`, operand. -/
def binOperandsAt (cs : List Char) : Option (List Char × List Char) :=
  (operandTake cs).bind fun lr =>
    match lr.2.dropWhile isSpaceJS with
    | o :: r2 =>
      if isOpChar o then
        (operandTake (r2.dropWhile isSpaceJS)).map fun rr => (lr.1, rr.1)
      else Option.none
    | [] => Option.none

def matchBinOperands (line : List Char) : Option (List Char × List Char) :=
  scanPos binOperandsAt false Option.none line

/-- `/^\d+$/.test(tok) ? Int : (types.get(tok) ?? RandomAny)` -/
def operandType (types : List (String × TypeInfo)) (tok : List Char) : TypeInfo :=
  if !tok.isEmpty && tok.all Char.isDigit then make .int
  else (lookupT types (String.mk tok)).getD (make .randomAny)

/-- `InferenceEngine.scanBinaryOps`: when a line contains
`operand op operand` with both operands of type `Int` (numeric
literals, or `Int` in the running map), and the same line is a
`var`/`val ... = ...` assignment, the assigned name is forced to
`Int`. -/
def scanBinaryOps : List (List Char) → List (String × TypeInfo) → List (String × TypeInfo)
  | [], types => types
  | raw :: rest, types =>
    let line := trimJS raw
    let t1 :=
      match matchBinOperands line with
      | Option.none => types
      | Option.some lr =>
        if (operandType types lr.1).kind = .int ∧ (operandType types lr.2).kind = .int then
          match matchDeclNameValue line with
          | Option.some nv => setEntry types (String.mk nv.1) (make .int)
          | Option.none => types
        else types
    scanBinaryOps rest t1

/-! ### The engine entry point -/

def nodeChildrenList : NodeList → List ASTNode
  | .nil => []
  | .cons n ns => n :: nodeChildrenList ns

mutual
def nodeSize : ASTNode → Nat
  | .mk _ _ _ _ _ cs => 1 + nlistSize cs
def nlistSize : NodeList → Nat
  | .nil => 0
  | .cons n ns => nodeSize n + nlistSize ns
end

def stackSize : List ASTNode → Nat
  | [] => 0
  | n :: rest => nodeSize n + stackSize rest

theorem stackSize_append : ∀ a b : List ASTNode,
    stackSize (a ++ b) = stackSize a + stackSize b
  | [], b => by simp [stackSize]
  | n :: a, b => by
    simp only [List.cons_append, stackSize, List.append_eq, stackSize_append a b]
    omega

theorem stackSize_reverse : ∀ a : List ASTNode, stackSize a.reverse = stackSize a
  | [] => rfl
  | n :: a => by
    simp only [List.reverse_cons, stackSize_append, stackSize, stackSize_reverse a]
    omega

theorem stackSize_children : ∀ cs : NodeList, stackSize (nodeChildrenList cs) = nlistSize cs
  | .nil => rfl
  | .cons n ns => by
    simp only [nodeChildrenList, stackSize, nlistSize, stackSize_children ns]

/-- `InferenceEngine.collectDeclarationsFromAST`: an explicit stack
(`pop` takes the head; pushed children end up head-first in reverse
order, as with a JavaScript array used as a stack).  Every
variable-kind node's name is seeded with `RandomAny` unless already
present. -/
def collectDecls : List ASTNode → List (String × TypeInfo) → List (String × TypeInfo)
  | [], types => types
  | node :: stack, types =>
    let types' :=
      if node.kind = .var ∧ (lookupT types node.name).isNone then
        setEntry types node.name (make .randomAny)
      else types
    collectDecls ((nodeChildrenList node.children).reverse ++ stack) types'
termination_by s _ => stackSize s
decreasing_by
  simp only [stackSize, stackSize_append, stackSize_reverse]
  have h1 := stackSize_children node.children
  have h2 : nlistSize node.children < nodeSize node := by
    cases node with
    | mk k nm l s e cs =>
      simp only [ASTNode.children, nodeSize]
      omega
  omega

/-- `InferenceEngine.inferFromText`: fresh map, optional AST seeding,
then the three scans in source order over the `/\r?\n/`-split lines. -/
def inferFromText (text : List Char) (ast : Option ASTNode) : List (String × TypeInfo) :=
  let lines := splitRN text
  let t1 :=
    match ast with
    | Option.some a => collectDecls [a] []
    | Option.none => []
  let t2 := scanInitializers lines t1
  let t3 := scanCollectionUsages lines t2
  scanBinaryOps lines t3

/-! ## Claim C4 -/

/-- C4.  Running the inference engine on
`val lst = List<Int>.new()` + `lst.add(3)` maps `lst` to the `List`
kind with exactly one generic argument, `Int`: the declaration line
gives `List<RandomAny>` (this engine revision ignores the explicit
generic), and merging the observed `add`-argument type `Int` into the
`RandomAny` slot yields `List<Int>` — the entry is not degraded. -/
theorem C4_list_add_inference :
    lookupT
        (inferFromText ("val lst = List<Int>.new()" ++ "\n" ++ "lst.add(3)" ++ "\n").data
          Option.none)
        "lst" =
      Option.some (makeG .list (.cons (make .int) .nil)) := by
  rfl

/-! ## Claim C6 -/

/-! `mergeTypesSpec` follows the claim's wording of the merge rule,
case by case in the claim's order: equal kinds with generics lists of
equal length merge pairwise recursively; equal kinds otherwise return
`a` unchanged; a mismatch with an `Unknown`/`RandomAny` side returns
the other side; any other mismatch returns a `Custom` type whose
display name joins the two kind names. -/
mutual
def mergeTypesSpec : TypeInfo → TypeInfo → TypeInfo
  | .mk ka ga na, .mk kb gb nb =>
    if ka = kb then
      match ga, gb with
      | .some la, .some lb =>
        if la.length = lb.length then .mk ka (.some (mergeGLSpec la lb)) Option.none
        else .mk ka ga na
      | _, _ => .mk ka ga na
    else if ka = .randomAny then .mk kb gb nb
    else if kb = .randomAny then .mk ka ga na
    else .mk .custom .none (Option.some (kindStr ka ++ "|" ++ kindStr kb))
def mergeGLSpec : GList → GList → GList
  | .cons a as, .cons b bs => .cons (mergeTypesSpec a b) (mergeGLSpec as bs)
  | _, _ => .nil
end

/-! Sizes used as termination measures for proofs over `TypeInfo`. -/

mutual
def tSize : TypeInfo → Nat
  | .mk _ g _ => 1 + goSize g
def goSize : GenOpt → Nat
  | .none => 0
  | .some l => 1 + glSize l
def glSize : GList → Nat
  | .nil => 0
  | .cons t ts => 1 + tSize t + glSize ts
end

theorem merge_eq_aux : ∀ n : Nat,
    (∀ a b : TypeInfo, tSize a ≤ n → mergeTypes a b = mergeTypesSpec a b) ∧
    (∀ la lb : GList, glSize la ≤ n → mergeGL la lb = mergeGLSpec la lb) := by
  intro n
  induction n with
  | zero =>
    constructor
    · intro a b ha
      exfalso
      cases a with
      | mk k g nm =>
        simp [tSize] at ha
    · intro la lb hla
      cases la with
      | nil => cases lb <;> rfl
      | cons a as =>
        exfalso
        simp [glSize] at hla
  | succ n ih =>
    constructor
    · intro a b ha
      cases a with
      | mk ka ga na =>
        cases b with
        | mk kb gb nb =>
          cases ga with
          | none => rfl
          | some la =>
            cases gb with
            | none => rfl
            | some lb =>
              show (if ka = kb then
                    (if la.length = lb.length then
                        TypeInfo.mk ka (GenOpt.some (mergeGL la lb)) Option.none
                      else TypeInfo.mk ka (GenOpt.some la) na)
                  else if ka = .randomAny then TypeInfo.mk kb (GenOpt.some lb) nb
                  else if kb = .randomAny then TypeInfo.mk ka (GenOpt.some la) na
                  else TypeInfo.mk .custom .none
                    (Option.some (kindStr ka ++ "|" ++ kindStr kb))) =
                (if ka = kb then
                    (if la.length = lb.length then
                        TypeInfo.mk ka (GenOpt.some (mergeGLSpec la lb)) Option.none
                      else TypeInfo.mk ka (GenOpt.some la) na)
                  else if ka = .randomAny then TypeInfo.mk kb (GenOpt.some lb) nb
                  else if kb = .randomAny then TypeInfo.mk ka (GenOpt.some la) na
                  else TypeInfo.mk .custom .none
                    (Option.some (kindStr ka ++ "|" ++ kindStr kb)))
              by_cases hk : ka = kb
              · rw [if_pos hk, if_pos hk]
                by_cases hl : la.length = lb.length
                · rw [if_pos hl, if_pos hl,
                    ih.2 la lb (by simp [tSize, goSize] at ha; omega)]
                · rw [if_neg hl, if_neg hl]
              · rw [if_neg hk, if_neg hk]
    · intro la lb hla
      cases la with
      | nil => cases lb <;> rfl
      | cons a as =>
        cases lb with
        | nil => rfl
        | cons b bs =>
          show GList.cons (mergeTypes a b) (mergeGL as bs) =
            GList.cons (mergeTypesSpec a b) (mergeGLSpec as bs)
          rw [ih.1 a b (by simp [glSize] at hla; omega),
            ih.2 as bs (by simp [glSize] at hla; omega)]

theorem mergeTypes_eq_spec (a b : TypeInfo) : mergeTypes a b = mergeTypesSpec a b :=
  (merge_eq_aux (tSize a)).1 a b (le_refl _)

/-- C6.  `mergeTypes` implements exactly the claimed merge rule: for
all type values `a` and `b` it agrees with `mergeTypesSpec`, the
rule as the claim words it (equal kinds with equal-arity generics →
pairwise recursive merge; equal kinds otherwise → `a` unchanged; a
`RandomAny` side on a kind mismatch → the other side; otherwise a
`Custom` type whose display name joins the two kind names with a
bar). -/
theorem C6_merge_rule (a b : TypeInfo) : mergeTypes a b = mergeTypesSpec a b :=
  mergeTypes_eq_spec a b

/-! ## Claim C10 -/

theorem isQuoted_false_of_head {q c : Char} (cs : List Char) (h : ¬(c = q)) :
    isQuoted q (c :: cs) = false := by
  simp only [isQuoted]
  cases cs.reverse with
  | nil => rfl
  | cons d mids => simp [h]

theorem isUnsignedNum_false_of_head {c : Char} (cs : List Char) (h : c.isDigit = false) :
    isUnsignedNum (c :: cs) = false := by
  simp [isUnsignedNum, List.takeWhile_cons, h]

theorem ctorTest_false_of_head (n0 : Char) (ns : List Char) {c : Char} (cs : List Char)
    (hsp : isSpaceJS c = false) (hne : ¬(c = n0)) :
    ctorTest (n0 :: ns) (c :: cs) = false := by
  unfold ctorTest
  rw [List.dropWhile_cons, if_neg (by simp [hsp])]
  simp [takeLit, hne]

theorem isFuncCallExpr_false_of_head {c : Char} (cs : List Char) (h : isIdStart c = false) :
    isFuncCallExpr (c :: cs) = false := by
  simp [isFuncCallExpr, h]

theorem isBoolLit_false_of_head {c : Char} (cs : List Char)
    (h1 : ¬(c = 't')) (h2 : ¬(c = 'f')) : isBoolLit (c :: cs) = false := by
  simp only [isBoolLit, Bool.or_eq_false_iff, decide_eq_false_iff_not]
  constructor
  · intro he
    injection he with hh _
    exact h1 hh
  · intro he
    injection he with hh _
    exact h2 hh

/-- C10.  A sign-prefixed integer literal initializer is mapped to
the `RandomAny` placeholder, not `Int`: every expression accepted by
the pattern library's `INT` classifier (`^[+-]?\d+(\.\d+)?$`) that
starts with an explicit sign falls through every branch of the
engine's `inferExpressionType` — its own numeric test
`^\d+(\.\d+)?$` accepts only unsigned digit sequences — down to
the `RandomAny` fallback, which `typeToString` renders as the
`"RandomAny"` placeholder; concretely, `var x = -5` maps `x` to
`RandomAny` while the pattern library accepts `-5` as an integer
literal. -/
theorem C10_sign_prefixed_literal (expr : List Char)
    (hint : isIntLiteralPat expr = true)
    (hsign : expr.head? = Option.some '+' ∨ expr.head? = Option.some '-') :
    inferExpressionType expr = make .randomAny ∧
      typeToString (make .randomAny) = "RandomAny" ∧
      lookupT (inferFromText ("var x = -5").data Option.none) "x" =
        Option.some (make .randomAny) ∧
      isIntLiteralPat ("-5").data = true := by
  refine ⟨?_, rfl, rfl, rfl⟩
  obtain ⟨c, cs, rfl⟩ : ∃ c cs, expr = c :: cs := by
    cases expr with
    | nil => simp at hsign
    | cons c cs => exact ⟨c, cs, rfl⟩
  have hc : c = '+' ∨ c = '-' := by
    rcases hsign with h | h
    · left
      simpa using h
    · right
      simpa using h
  have hq1 : isQuoted '"' (c :: cs) = false :=
    isQuoted_false_of_head cs (by rcases hc with rfl | rfl <;> decide)
  have hq2 : isQuoted '\'' (c :: cs) = false :=
    isQuoted_false_of_head cs (by rcases hc with rfl | rfl <;> decide)
  have hb : isBoolLit (c :: cs) = false :=
    isBoolLit_false_of_head cs (by rcases hc with rfl | rfl <;> decide)
      (by rcases hc with rfl | rfl <;> decide)
  have hn : isUnsignedNum (c :: cs) = false :=
    isUnsignedNum_false_of_head cs (by rcases hc with rfl | rfl <;> decide)
  have hsp : isSpaceJS c = false := by rcases hc with rfl | rfl <;> decide
  have hl : ctorTest "List".data (c :: cs) = false :=
    ctorTest_false_of_head 'L' "ist".data cs hsp (by rcases hc with rfl | rfl <;> decide)
  have hm : ctorTest "MutableMap".data (c :: cs) = false :=
    ctorTest_false_of_head 'M' "utableMap".data cs hsp (by rcases hc with rfl | rfl <;> decide)
  have hs : ctorTest "MutableSet".data (c :: cs) = false :=
    ctorTest_false_of_head 'M' "utableSet".data cs hsp (by rcases hc with rfl | rfl <;> decide)
  have hfc : isFuncCallExpr (c :: cs) = false :=
    isFuncCallExpr_false_of_head cs (by rcases hc with rfl | rfl <;> decide)
  unfold inferExpressionType
  simp [hq1, hq2, hb, hn, hl, hm, hs, hfc]

/-- C10, witness at the concrete input `-5`. -/
theorem C10_sign_prefixed_literal_witness :
    isIntLiteralPat ("-5").data = true ∧
      (("-5").data.head? = Option.some '+' ∨ ("-5").data.head? = Option.some '-') ∧
      inferExpressionType ("-5").data = make .randomAny :=
  ⟨by decide, by decide,
    (C10_sign_prefixed_literal ("-5").data (by decide) (by decide)).1⟩

end Inference

/-! # The later revision: pattern library, Type Parser, expression
inference and the Type Registry

The sources also hold the revised inference stack: the pattern
library (`regexPatterns.ts`), the `ExpressionInference` class, the
builtin catalog (`builtinDefinition.ts`) and the `TypeRegistry`
(`types.ts`).  The `TypeParser` class these import is not among the
sources; its four helpers are modelled from the spec where the doc
comment says so. -/

namespace Types

/-- The revised `TypeKind` union: `"Int" | "String" | "Bool" |
"List" | "MutableMap" | "MutableSet" | "Function" | "Custom" |
"Unknown" | "Unit"`. -/
inductive TypeKind where
  | int | string | bool | list | mutableMap | mutableSet
  | function | custom | unknown | unit
  deriving DecidableEq, Repr

/-- The kind IS this string in the TS source; it doubles as the
builtin catalog's key. -/
def kindStr : TypeKind → String
  | .int => "Int"
  | .string => "String"
  | .bool => "Bool"
  | .list => "List"
  | .mutableMap => "MutableMap"
  | .mutableSet => "MutableSet"
  | .function => "Function"
  | .custom => "Custom"
  | .unknown => "Unknown"
  | .unit => "Unit"

/-! The revised `TypeInfo` record adds an optional
`hasTypeAnnotation` flag (field `hasAnn` here); `generics` stays an
optional array of `TypeInfo`. -/
mutual
inductive TypeInfo where
  | mk (kind : TypeKind) (generics : GenOpt) (readonlyName : Option String)
      (hasAnn : Option Bool)
  deriving Repr
inductive GenOpt where
  | none
  | some (ts : GList)
  deriving Repr
inductive GList where
  | nil
  | cons (t : TypeInfo) (ts : GList)
  deriving Repr
end

def TypeInfo.kind : TypeInfo → TypeKind
  | .mk k _ _ _ => k

def TypeInfo.generics : TypeInfo → GenOpt
  | .mk _ g _ _ => g

def TypeInfo.readonlyName : TypeInfo → Option String
  | .mk _ _ n _ => n

def GList.ofList : List TypeInfo → GList
  | [] => .nil
  | x :: xs => .cons x (ofList xs)

/-- `make(kind)` of the `ExpressionInference` module (optional
fields absent). -/
def make (k : TypeKind) : TypeInfo := .mk k .none Option.none Option.none

/-- `t(kind)` of `types.ts`. -/
def t0 (k : TypeKind) : TypeInfo := .mk k .none Option.none Option.none

/-- `t(kind, [g])` of `types.ts`. -/
def t1 (k : TypeKind) (g : TypeInfo) : TypeInfo :=
  .mk k (.some (.cons g .nil)) Option.none Option.none

/-- `t(kind, undefined, name)` of `types.ts`. -/
def tN (k : TypeKind) (nm : String) : TypeInfo :=
  .mk k .none (Option.some nm) Option.none

/-- `generic(name)` of `types.ts`: an `Unknown` placeholder carrying
the generic parameter name. -/
def generic (nm : String) : TypeInfo :=
  .mk .unknown .none (Option.some nm) Option.none

/-! ## The Type Parser

`types.ts` and `ExpressionInference` call four `TypeParser` helpers;
the class itself is not among the sources, so all but
`extractGenericType` (which is the pattern library's own regex) are
modelled from the spec's §4.3 contract. -/

/-- Modelled from the spec: `typeNameToKind`, the pure name→kind
lookup — the fixed builtin names map to their kind, any other name
is `Custom`. -/
def typeNameToKind (s : List Char) : TypeKind :=
  if s = "Int".data then .int
  else if s = "String".data then .string
  else if s = "Bool".data then .bool
  else if s = "List".data then .list
  else if s = "MutableMap".data then .mutableMap
  else if s = "MutableSet".data then .mutableSet
  else .custom

/-- `OTHER.TYPE_NAME_AND_GENERIC_CONTENT` of the pattern library:
`^([a-zA-Z_][a-zA-Z0-9_]*)\s*<(.+)>$` — base name and bracket
content.  The name capture is maximal (a shorter capture leaves a
word character where `\s*<` must match); the greedy `.+` forces the
final character to be the closing `>`, and the dot crosses no
newline. -/
def extractGenericType (s : List Char) : Option (List Char × List Char) :=
  match s with
  | [] => Option.none
  | c :: _ =>
    if isIdStart c then
      match (s.dropWhile isWordChar).dropWhile isSpaceJS with
      | '<' :: tl =>
        (match tl.reverse with
         | '>' :: midsRev =>
           if midsRev.isEmpty then Option.none
           else if midsRev.all (fun x => !(x = '\n')) then
             Option.some (s.takeWhile isWordChar, midsRev.reverse)
           else Option.none
         | _ => Option.none)
      | _ => Option.none
    else Option.none

/-- Modelled from the spec: `parseCommaSeparated` splits on the
commas that are not nested inside further angle brackets.
(Whitespace handling is not pinned down by the spec; each part is
trimmed here — nothing below depends on that choice.) -/
def pcsGo (depth : Nat) (acc : List Char) : List Char → List (List Char)
  | [] => [acc]
  | c :: cs =>
    if c = ',' ∧ depth = 0 then acc :: pcsGo 0 [] cs
    else
      pcsGo (if c = '<' then depth + 1 else if c = '>' then depth - 1 else depth)
        (acc ++ [c]) cs

def parseCommaSeparated (s : List Char) : List (List Char) :=
  (pcsGo 0 [] s).map trimJS

/-- Modelled from the spec: the generic suffix's bracket content —
everything between the first `<` and its matching `>`; `none` when
no bracket opens or the brackets never balance. -/
def egcGo (depth : Nat) (acc : List Char) : List Char → Option (List Char)
  | [] => Option.none
  | c :: cs =>
    if c = '>' then
      if depth = 0 then Option.some acc else egcGo (depth - 1) (acc ++ [c]) cs
    else if c = '<' then egcGo (depth + 1) (acc ++ [c]) cs
    else egcGo depth (acc ++ [c]) cs

def extractGenericContent (s : List Char) : Option (List Char) :=
  match s.dropWhile (fun c => !(c = '<')) with
  | '<' :: tl => egcGo 0 [] tl
  | _ => Option.none

/-- The non-generic base case of `parseTypeString`: a builtin name
maps to its kind, anything else to `Custom` with the raw string as
display name. -/
def baseType (s : List Char) : TypeInfo :=
  .mk (typeNameToKind s) .none
    (if typeNameToKind s = TypeKind.custom then Option.some (String.mk s)
     else Option.none)
    Option.none

/-- Modelled from the spec: `parseTypeString` — if the raw string
carries a top-level generic suffix, the bracket content is split by
`parseCommaSeparated` and each part recursively parsed, left to
right; otherwise the base case applies.  The recursion is
fuel-indexed; every recursive call works on a strictly shorter
string (the bracket content drops the base name, `<` and `>`), so
`s.length` fuel always suffices. -/
def parseTypeStringF : Nat → List Char → TypeInfo
  | 0, s => baseType s
  | fuel + 1, s =>
    match extractGenericType s with
    | Option.some (base, content) =>
      .mk (typeNameToKind base)
        (.some (GList.ofList
          ((parseCommaSeparated content).map (parseTypeStringF fuel))))
        (if typeNameToKind base = TypeKind.custom then
           Option.some (String.mk base)
         else Option.none)
        Option.none
    | Option.none => baseType s

def parseTypeString (s : List Char) : TypeInfo := parseTypeStringF s.length s

/-! ## Pattern-library extractors (`regexPatterns.ts`) -/

/-- `extractDeclarationNameAndValue`: the `NAME_AND_VALUE_ONLY`
pattern `\b(?:var|val)\s+([a-zA-Z_][a-zA-Z0-9_]*)\s*=\s*(.+)` — the
very pattern the old engine used as `initRegex` (the trailing greedy
`(.+)` reaches the end of the line with or without a `$`). -/
def extractDeclarationNameAndValue (line : List Char) :
    Option (List Char × List Char) :=
  Inference.matchDeclNameValue line

/-- The tail `\s*\.new\s*\(` both constructor patterns share after
the optional generics group. -/
def spDotNewParen (r : List Char) : Bool :=
  Inference.dotNewParen (r.dropWhile isSpaceJS)

/-- Is some later `>` — reachable by `.+`, hence preceded by no
newline and by at least one captured character — followed by
`\s*\.new\s*\(`?  Existence over all splits is exactly what the
backtracking greedy group decides; the unused capture cannot change
the verdict. -/
def existsGtNewSp (one : Bool) : List Char → Bool
  | [] => false
  | c :: cs =>
    if c = '\n' then false
    else if one && c = '>' && spDotNewParen cs then true
    else existsGtNewSp true cs

/-- After the matched constructor name: `\s*(<.+>)?\s*\.new\s*\(`.
The group is tried first; when it is skipped the two whitespace runs
collapse into one. -/
def ctorAfterName (rest : List Char) : Bool :=
  (match rest.dropWhile isSpaceJS with
   | '<' :: tl => existsGtNewSp false tl
   | _ => false)
  || Inference.dotNewParen (rest.dropWhile isSpaceJS)

/-- One alternative of the collection-name alternation: the literal
name followed by the constructor tail. -/
def tryCollectionName (nm s0 : List Char) : Option (List Char) :=
  match takeLit nm s0 with
  | Option.some rest => if ctorAfterName rest then Option.some nm else Option.none
  | Option.none => Option.none

/-- `OTHER.BUILTIN_COLLECTION_CONSTRUCTOR_NAME_AND_OPTIONAL_TYPE`:
`^\s*(List|MutableMap|MutableSet)\s*(<.+>)?\s*\.new\s*\(`, returning
the matched name (`match.collectionType`).  No two alternatives can
match at the same position (`List` and the `Mutable…` names differ
at the first character, the two `Mutable…` names at the eighth), so
the ordered alternation is this first-match choice. -/
def extractBuiltinCollectionConstructor (expr : List Char) : Option (List Char) :=
  (tryCollectionName "List".data (expr.dropWhile isSpaceJS)).or
    ((tryCollectionName "MutableMap".data (expr.dropWhile isSpaceJS)).or
      (tryCollectionName "MutableSet".data (expr.dropWhile isSpaceJS)))

/-- `OTHER.CONSTRUCTOR_NAME_AND_OPTIONAL_TYPE`:
`^\s*([A-Z][a-zA-Z0-9_]*)\s*(<.+>)?\s*\.new\s*\(`, returning
`match.typeName`.  The name capture is maximal: a shorter capture
leaves a word character where `\s*<` or `\s*\.` must match. -/
def extractConstructor (expr : List Char) : Option (List Char) :=
  match expr.dropWhile isSpaceJS with
  | [] => Option.none
  | c :: cs =>
    if c.isUpper then
      if ctorAfterName ((c :: cs).dropWhile isWordChar) then
        Option.some ((c :: cs).takeWhile isWordChar)
      else Option.none
    else Option.none

/-- `FUNCTION.NAME`: `^([a-zA-Z_][a-zA-Z0-9_]*)\s*\(` — a leading
identifier (again a maximal capture) followed, after optional
whitespace, by an opening parenthesis. -/
def extractFunctionName (expr : List Char) : Option (List Char) :=
  match expr with
  | [] => Option.none
  | c :: _ =>
    if isIdStart c then
      match (expr.dropWhile isWordChar).dropWhile isSpaceJS with
      | '(' :: _ => Option.some (expr.takeWhile isWordChar)
      | _ => Option.none
    else Option.none

/-- `FUNCTION.ARGUMENTS_WITH_EOL`:
`^[a-zA-Z_][a-zA-Z0-9_]*(\(.*\))?$` — an identifier, optionally
followed by one parenthesised (newline-free) argument region closing
at the very end. -/
def isFunctionCallOrIdentifier (expr : List Char) : Bool :=
  match expr with
  | [] => false
  | c :: _ =>
    isIdStart c &&
    (match expr.dropWhile isWordChar with
     | [] => true
     | '(' :: tl =>
       (match tl.reverse with
        | ')' :: mids => mids.all (fun x => !(x = '\n'))
        | _ => false)
     | _ => false)

/-- `BUILTIN_TYPES.STRING` (`^".*"$`): `isStringLiteral` is the
double-quote instance of the shared quoting test. -/
def isStringLiteral (expr : List Char) : Bool := Inference.isQuoted '"' expr

/-- `BUILTIN_TYPES.BOOL`: the same `^(true|false)$` as the old
engine's test. -/
def isBoolLiteral (expr : List Char) : Bool := Inference.isBoolLit expr

/-- `BUILTIN_TYPES.INT`: `^[+-]?\d+(\.\d+)?$`. -/
def isIntLiteral (expr : List Char) : Bool := Inference.isIntLiteralPat expr

/-! ## `ExpressionInference` (the revised expression rules)

The class closes over the `functionReturnTypes` and `types` maps;
both are passed explicitly here. -/

/-- The `switch (kind)` placeholder arm of
`processBuiltinCollectionConstructor`: without explicit generics the
collection gets `Unknown` placeholders sized to its arity. -/
def collectionPlaceholders (k : TypeKind) : TypeInfo :=
  match k with
  | .list => .mk .list (.some (.cons (make .unknown) .nil)) Option.none Option.none
  | .mutableSet =>
    .mk .mutableSet (.some (.cons (make .unknown) .nil)) Option.none Option.none
  | .mutableMap =>
    .mk .mutableMap (.some (.cons (make .unknown) (.cons (make .unknown) .nil)))
      Option.none Option.none
  | _ => make .unknown

/-- `processBuiltinCollectionConstructor`: explicit generics are
parsed via the Type Parser when the expression carries a non-empty
bracket content — JavaScript's `if (genericContent)` is false for
the empty string — otherwise the arity placeholders apply. -/
def processBuiltinCollectionConstructor (cname expr : List Char) : TypeInfo :=
  match extractGenericContent expr with
  | Option.some g =>
    if g.isEmpty then collectionPlaceholders (typeNameToKind cname)
    else
      .mk (typeNameToKind cname)
        (.some (GList.ofList ((parseCommaSeparated g).map parseTypeString)))
        Option.none Option.none
  | Option.none => collectionPlaceholders (typeNameToKind cname)

/-- `processCustomTypeConstructor`: `Custom` with the constructor
name as display name, plus parsed generics when a non-empty bracket
content is present. -/
def processCustomTypeConstructor (tname expr : List Char) : TypeInfo :=
  match extractGenericContent expr with
  | Option.some g =>
    if g.isEmpty then .mk .custom .none (Option.some (String.mk tname)) Option.none
    else
      .mk .custom (.some (GList.ofList ((parseCommaSeparated g).map parseTypeString)))
        (Option.some (String.mk tname)) Option.none
  | Option.none => .mk .custom .none (Option.some (String.mk tname)) Option.none

/-- `ExpressionInference.inferExpressionType`, branch for branch in
source order: the three literal classifiers, the builtin-collection
constructor, the custom constructor, the known-return-type function
call (falling through when the name is unknown), the
call-or-identifier map lookup with its `Unit` default, and the
`Unknown` fallback. -/
def inferExpressionType (frt types : List (String × TypeInfo)) (expr : List Char) :
    TypeInfo :=
  if isStringLiteral expr then make .string
  else if isBoolLiteral expr then make .bool
  else if isIntLiteral expr then make .int
  else
    match extractBuiltinCollectionConstructor expr with
    | Option.some cname => processBuiltinCollectionConstructor cname expr
    | Option.none =>
      match extractConstructor expr with
      | Option.some tname => processCustomTypeConstructor tname expr
      | Option.none =>
        match (match extractFunctionName expr with
               | Option.some fn => lookupT frt (String.mk fn)
               | Option.none => Option.none) with
        | Option.some rt => rt
        | Option.none =>
          if isFunctionCallOrIdentifier expr then
            match lookupT types (String.mk expr) with
            | Option.some et => et
            | Option.none => make .unit
          else make .unknown

/-- Modelled from the spec: step 2 of the engine contract — every
line matching a `var`/`val … = expr` declaration assigns the
expression's inferred type to the name, overwriting. -/
def scanDeclarations (frt : List (String × TypeInfo)) :
    List (List Char) → List (String × TypeInfo) → List (String × TypeInfo)
  | [], types => types
  | line :: rest, types =>
    match extractDeclarationNameAndValue line with
    | Option.some nv =>
      scanDeclarations frt rest
        (setEntry types (String.mk nv.1) (inferExpressionType frt types nv.2))
    | Option.none => scanDeclarations frt rest types

/-! ## The Type Registry (`types.ts`) with the builtin catalog
(`builtinDefinition.ts`) -/

structure ParamInfo where
  name : String
  type : TypeInfo
  deriving Repr

structure MethodInfo where
  name : String
  returnType : TypeInfo
  params : List ParamInfo
  documentation : Option String
  deriving Repr

structure FieldInfo where
  name : String
  type : TypeInfo
  mutable : Bool
  deriving Repr

structure TypeDefinition where
  kind : TypeKind
  name : String
  genericParams : Option (List String)
  methods : List MethodInfo
  fields : List FieldInfo
  deriving Repr

/-- `initBuiltinTypes()`: the catalog in insertion order. -/
def initBuiltinTypes : List (String × TypeDefinition) :=
  [("Int", TypeDefinition.mk .int "Int" Option.none
     [MethodInfo.mk "toString" (t0 .string) [] (Option.some "Convert to string"),
      MethodInfo.mk "abs" (t0 .int) [] (Option.some "Absolute value")]
     []),
   ("String", TypeDefinition.mk .string "String" Option.none
     [MethodInfo.mk "length" (t0 .int) [] (Option.some "Get string length"),
      MethodInfo.mk "substring" (t0 .string)
        [ParamInfo.mk "start" (t0 .int), ParamInfo.mk "end" (t0 .int)]
        (Option.some "Get substring from start to end"),
      MethodInfo.mk "toUpperCase" (t0 .string) [] (Option.some "Convert to uppercase"),
      MethodInfo.mk "toLowerCase" (t0 .string) [] (Option.some "Convert to lowercase"),
      MethodInfo.mk "contains" (t0 .bool) [ParamInfo.mk "str" (t0 .string)]
        (Option.some "Check if string contains substring"),
      MethodInfo.mk "startsWith" (t0 .bool) [ParamInfo.mk "prefix" (t0 .string)]
        (Option.some "Check if string starts with prefix"),
      MethodInfo.mk "endsWith" (t0 .bool) [ParamInfo.mk "suffix" (t0 .string)]
        (Option.some "Check if string ends with suffix"),
      MethodInfo.mk "trim" (t0 .string) []
        (Option.some "Remove leading and trailing whitespace"),
      MethodInfo.mk "split" (t1 .list (t0 .string))
        [ParamInfo.mk "delimiter" (t0 .string)]
        (Option.some "Split string by delimiter"),
      MethodInfo.mk "replace" (t0 .string)
        [ParamInfo.mk "old" (t0 .string), ParamInfo.mk "new" (t0 .string)]
        (Option.some "Replace occurrences of old with new"),
      MethodInfo.mk "charAt" (t0 .string) [ParamInfo.mk "index" (t0 .int)]
        (Option.some "Get character at index"),
      MethodInfo.mk "indexOf" (t0 .int) [ParamInfo.mk "str" (t0 .string)]
        (Option.some "Find index of substring")]
     []),
   ("Bool", TypeDefinition.mk .bool "Bool" Option.none
     [MethodInfo.mk "toString" (t0 .string) [] (Option.some "Convert to string")]
     []),
   ("List", TypeDefinition.mk .list "List" (Option.some ["T"])
     [MethodInfo.mk "add" (tN .unknown "Unit") [ParamInfo.mk "element" (generic "T")]
        (Option.some "Add element to list"),
      MethodInfo.mk "get" (generic "T") [ParamInfo.mk "index" (t0 .int)]
        (Option.some "Get element at index"),
      MethodInfo.mk "set" (tN .unknown "Unit")
        [ParamInfo.mk "index" (t0 .int), ParamInfo.mk "element" (generic "T")]
        (Option.some "Set element at index"),
      MethodInfo.mk "remove" (t0 .bool) [ParamInfo.mk "index" (t0 .int)]
        (Option.some "Remove element at index"),
      MethodInfo.mk "size" (t0 .int) [] (Option.some "Get list size"),
      MethodInfo.mk "isEmpty" (t0 .bool) [] (Option.some "Check if list is empty"),
      MethodInfo.mk "contains" (t0 .bool) [ParamInfo.mk "element" (generic "T")]
        (Option.some "Check if list contains element"),
      MethodInfo.mk "indexOf" (t0 .int) [ParamInfo.mk "element" (generic "T")]
        (Option.some "Find index of element"),
      MethodInfo.mk "clear" (tN .unknown "Unit") [] (Option.some "Remove all elements"),
      MethodInfo.mk "first" (generic "T") [] (Option.some "Get first element"),
      MethodInfo.mk "last" (generic "T") [] (Option.some "Get last element")]
     []),
   ("MutableMap", TypeDefinition.mk .mutableMap "MutableMap" (Option.some ["K", "V"])
     [MethodInfo.mk "put" (tN .unknown "Unit")
        [ParamInfo.mk "key" (generic "K"), ParamInfo.mk "value" (generic "V")]
        (Option.some "Put key-value pair"),
      MethodInfo.mk "get" (generic "V") [ParamInfo.mk "key" (generic "K")]
        (Option.some "Get value by key"),
      MethodInfo.mk "remove" (t0 .bool) [ParamInfo.mk "key" (generic "K")]
        (Option.some "Remove entry by key"),
      MethodInfo.mk "containsKey" (t0 .bool) [ParamInfo.mk "key" (generic "K")]
        (Option.some "Check if map contains key"),
      MethodInfo.mk "containsValue" (t0 .bool) [ParamInfo.mk "value" (generic "V")]
        (Option.some "Check if map contains value"),
      MethodInfo.mk "keys" (t1 .list (generic "K")) [] (Option.some "Get all keys"),
      MethodInfo.mk "values" (t1 .list (generic "V")) [] (Option.some "Get all values"),
      MethodInfo.mk "size" (t0 .int) [] (Option.some "Get map size"),
      MethodInfo.mk "isEmpty" (t0 .bool) [] (Option.some "Check if map is empty"),
      MethodInfo.mk "clear" (tN .unknown "Unit") [] (Option.some "Remove all entries")]
     []),
   ("MutableSet", TypeDefinition.mk .mutableSet "MutableSet" (Option.some ["T"])
     [MethodInfo.mk "add" (t0 .bool) [ParamInfo.mk "element" (generic "T")]
        (Option.some "Add element to set"),
      MethodInfo.mk "remove" (t0 .bool) [ParamInfo.mk "element" (generic "T")]
        (Option.some "Remove element from set"),
      MethodInfo.mk "contains" (t0 .bool) [ParamInfo.mk "element" (generic "T")]
        (Option.some "Check if set contains element"),
      MethodInfo.mk "size" (t0 .int) [] (Option.some "Get set size"),
      MethodInfo.mk "isEmpty" (t0 .bool) [] (Option.some "Check if set is empty"),
      MethodInfo.mk "clear" (tN .unknown "Unit") [] (Option.some "Remove all elements")]
     [])]

/-- The `genericMap` loop: positional `set`s truncated to the
shorter of the two lists. -/
def buildGenericMap : List String → GList → List (String × TypeInfo) →
    List (String × TypeInfo)
  | [], _, m => m
  | _ :: _, .nil, m => m
  | p :: ps, .cons g gs, m => buildGenericMap ps gs (setEntry m p g)

/-! `TypeRegistry.resolveGenericType`: a non-empty display name that
the map knows is replaced outright (JavaScript's
`if (type.readonlyName)` is false for the empty string, and a found
`TypeInfo` object is always truthy); otherwise a present generics
array — empty included — is rebuilt by the object spread with every
element recursively resolved, and a type without one passes through
unchanged. -/
mutual
def resolveGenericType : TypeInfo → List (String × TypeInfo) → TypeInfo
  | .mk k g n a, m =>
    match (match n with
           | Option.some nm => if nm = "" then Option.none else lookupT m nm
           | Option.none => Option.none) with
    | Option.some mt => mt
    | Option.none =>
      match g with
      | .some gl => .mk k (.some (resolveGList gl m)) n a
      | .none => .mk k .none n a
def resolveGList : GList → List (String × TypeInfo) → GList
  | .nil, _ => .nil
  | .cons ti ts, m => .cons (resolveGenericType ti m) (resolveGList ts m)
end

/-- One parameter of the method copy built by
`resolveGenericMethods`. -/
def resolveParam (m : List (String × TypeInfo)) (p : ParamInfo) : ParamInfo :=
  ParamInfo.mk p.name (resolveGenericType p.type m)

/-- One method of the copy: same name and documentation, resolved
return and parameter types. -/
def resolveMethod (m : List (String × TypeInfo)) (mi : MethodInfo) : MethodInfo :=
  MethodInfo.mk mi.name (resolveGenericType mi.returnType m)
    (mi.params.map (resolveParam m)) mi.documentation

/-- `TypeRegistry.resolveGenericMethods`: without declared generic
parameters or supplied generics (JavaScript `!x` — only an absent
field, arrays are truthy) the stored methods are returned as-is;
otherwise a fresh mapped copy is built. -/
def resolveGenericMethods (td : TypeDefinition) (ti : TypeInfo) : List MethodInfo :=
  match td.genericParams, ti.generics with
  | Option.some gps, GenOpt.some gargs =>
    td.methods.map (resolveMethod (buildGenericMap gps gargs []))
  | _, _ => td.methods

/-- The registry state: the builtin catalog (filled once by the
constructor) and the user catalog. -/
structure TypeRegistry where
  builtinTypes : List (String × TypeDefinition)
  userTypes : List (String × TypeDefinition)
  deriving Repr

/-- `new TypeRegistry()`. -/
def TypeRegistry.new : TypeRegistry := TypeRegistry.mk initBuiltinTypes []

/-- `TypeRegistry.getMethodsForType`, written state-passing: the
builtin catalog is consulted by kind string, then the user catalog
by display name (`??`-falling back to the kind string); the pair's
second component is the registry the call leaves behind — the method
body only ever reads the two catalogs, so it is returned as-is. -/
def TypeRegistry.getMethodsForTypeS (r : TypeRegistry) (ti : TypeInfo) :
    List MethodInfo × TypeRegistry :=
  ((match lookupT r.builtinTypes (kindStr ti.kind) with
    | Option.some bd => resolveGenericMethods bd ti
    | Option.none =>
      match lookupT r.userTypes (Option.getD ti.readonlyName (kindStr ti.kind)) with
      | Option.some ud => ud.methods
      | Option.none => []),
   r)

def TypeRegistry.getMethodsForType (r : TypeRegistry) (ti : TypeInfo) :
    List MethodInfo :=
  (r.getMethodsForTypeS ti).1

/-- `List<Int>`: the `List` kind carrying one supplied generic. -/
def listIntT : TypeInfo :=
  .mk .list (.some (.cons (t0 .int) .nil)) Option.none Option.none

/-! ## Claim C5 -/

/-- C5.  `getMethodsForType` on `List<Int>` substitutes the supplied
generic for the placeholder: the returned list's `get` method has
return type `Int` (not the stored placeholder `T`), built by the
positional parameter-name→argument map; the `add` conjunct shows the
same substitution inside a parameter type, with the non-parameter
display name `Unit` passing through untouched. -/
theorem C5_list_get_returns_int :
    (TypeRegistry.new.getMethodsForType listIntT).find?
        (fun mi => decide (mi.name = "get")) =
      Option.some (MethodInfo.mk "get" (t0 .int)
        [ParamInfo.mk "index" (t0 .int)] (Option.some "Get element at index")) ∧
    (TypeRegistry.new.getMethodsForType listIntT).find?
        (fun mi => decide (mi.name = "add")) =
      Option.some (MethodInfo.mk "add" (tN .unknown "Unit")
        [ParamInfo.mk "element" (t0 .int)] (Option.some "Add element to list")) :=
  ⟨rfl, rfl⟩

/-! ## Claim C9 -/

/-- C9.  `getMethodsForType` never changes the registry: the
state-passing form returns the state it was given, any later query
on the returned state answers exactly as on the original, and after
the `List<Int>` query the stored `List` entry still carries the
untouched placeholder `T` in its `get` method — substitution happens
on copies, so a later query with different generics (`List<String>`)
still substitutes correctly. -/
theorem C9_get_methods_pure :
    (∀ (r : TypeRegistry) (ti : TypeInfo), (r.getMethodsForTypeS ti).2 = r) ∧
    (∀ (r : TypeRegistry) (ti ti2 : TypeInfo),
      ((r.getMethodsForTypeS ti).2).getMethodsForType ti2 =
        r.getMethodsForType ti2) ∧
    lookupT ((TypeRegistry.new.getMethodsForTypeS listIntT).2).builtinTypes "List" =
      lookupT TypeRegistry.new.builtinTypes "List" ∧
    Option.map (fun td => td.methods.find? (fun mi => decide (mi.name = "get")))
        (lookupT ((TypeRegistry.new.getMethodsForTypeS listIntT).2).builtinTypes
          "List") =
      Option.some (Option.some (MethodInfo.mk "get" (generic "T")
        [ParamInfo.mk "index" (t0 .int)] (Option.some "Get element at index"))) ∧
    (((TypeRegistry.new.getMethodsForTypeS listIntT).2).getMethodsForType
          (t1 .list (t0 .string))).find? (fun mi => decide (mi.name = "get")) =
      Option.some (MethodInfo.mk "get" (t0 .string)
        [ParamInfo.mk "index" (t0 .int)] (Option.some "Get element at index")) :=
  ⟨fun _ _ => rfl, fun _ _ _ => rfl, rfl, rfl, rfl⟩

/-! ## Claim C3 -/

/-- A successful `takeLit` pins the head character. -/
theorem takeLit_head {k : Char} {ks cs r : List Char} {c : Char}
    (h : takeLit (k :: ks) (c :: cs) = Option.some r) : c = k := by
  by_cases hc : c = k
  · exact hc
  · simp [takeLit, hc] at h

/-- A successful collection-name alternative pins the head
character. -/
theorem tryCollectionName_head {k : Char} {ks : List Char} {c : Char}
    {cs r : List Char}
    (h : tryCollectionName (k :: ks) (c :: cs) = Option.some r) : c = k := by
  unfold tryCollectionName at h
  cases ht : takeLit (k :: ks) (c :: cs) with
  | none => rw [ht] at h; exact absurd h (by simp)
  | some rest => exact takeLit_head ht

/-- The pattern library's signed-integer test rejects any head that
is neither a sign nor a digit. -/
theorem isIntLiteralPat_false_of_head {c : Char} (cs : List Char)
    (h1 : ¬(c = '+')) (h2 : ¬(c = '-')) (h3 : c.isDigit = false) :
    Inference.isIntLiteralPat (c :: cs) = false := by
  simp only [Inference.isIntLiteralPat]
  rw [if_neg (by simp [h1, h2])]
  exact Inference.isUnsignedNum_false_of_head cs h3

/-- A builtin-collection constructor match forces the expression to
start with whitespace, `L` or `M`; none of the three literal
classifiers accepts such an expression. -/
theorem builtinCtor_literals_false {expr cname : List Char}
    (h : extractBuiltinCollectionConstructor expr = Option.some cname) :
    isStringLiteral expr = false ∧ isBoolLiteral expr = false ∧
      isIntLiteral expr = false := by
  cases expr with
  | nil => simp [extractBuiltinCollectionConstructor, tryCollectionName, takeLit] at h
  | cons c cs =>
    have hc : isSpaceJS c = true ∨ c = 'L' ∨ c = 'M' := by
      by_cases hsp : isSpaceJS c = true
      · exact Or.inl hsp
      · right
        have hd : (c :: cs).dropWhile isSpaceJS = c :: cs := by
          rw [List.dropWhile_cons, if_neg (by simp [hsp])]
        unfold extractBuiltinCollectionConstructor at h
        rw [hd] at h
        cases h1 : tryCollectionName ("List").data (c :: cs) with
        | some r => exact Or.inl (tryCollectionName_head h1)
        | none =>
          rw [h1] at h
          cases h2 : tryCollectionName ("MutableMap").data (c :: cs) with
          | some r => exact Or.inr (tryCollectionName_head h2)
          | none =>
            rw [h2] at h
            cases h3 : tryCollectionName ("MutableSet").data (c :: cs) with
            | some r => exact Or.inr (tryCollectionName_head h3)
            | none => rw [h3] at h; exact absurd h (by simp [Option.or])
    have hcs : c = ' ' ∨ c = '\t' ∨ c = '\n' ∨ c = '\r' ∨ c = '\x0b' ∨
        c = '\x0c' ∨ c = 'L' ∨ c = 'M' := by
      rcases hc with hsp | rfl | rfl
      · simp only [isSpaceJS, Bool.or_eq_true, decide_eq_true_eq] at hsp
        tauto
      · tauto
      · tauto
    refine ⟨?_, ?_, ?_⟩
    · exact Inference.isQuoted_false_of_head cs
        (by rcases hcs with rfl|rfl|rfl|rfl|rfl|rfl|rfl|rfl <;> decide)
    · exact Inference.isBoolLit_false_of_head cs
        (by rcases hcs with rfl|rfl|rfl|rfl|rfl|rfl|rfl|rfl <;> decide)
        (by rcases hcs with rfl|rfl|rfl|rfl|rfl|rfl|rfl|rfl <;> decide)
    · exact isIntLiteralPat_false_of_head cs
        (by rcases hcs with rfl|rfl|rfl|rfl|rfl|rfl|rfl|rfl <;> decide)
        (by rcases hcs with rfl|rfl|rfl|rfl|rfl|rfl|rfl|rfl <;> decide)
        (by rcases hcs with rfl|rfl|rfl|rfl|rfl|rfl|rfl|rfl <;> decide)

/-- Looking up the single entry a fresh map was given. -/
theorem lookupT_setEntry_nil {V : Type} (n : String) (x : V) :
    lookupT (setEntry [] n x) n = Option.some x := by
  simp [setEntry, lookupT]

/-- C3, counterexample on the old engine (`inlay.ts`), which the
claim also cites: its constructor branch ignores the explicit
generic argument list entirely — `var x = List<Int>.new()` assigns
`x` the kind `List` with the single placeholder `RandomAny`, not the
parsed `Int` (and its arity placeholder is `RandomAny`, not
`Unknown`). -/
theorem C3_counterexample :
    lookupT (Inference.inferFromText ("var x = List<Int>.new()" ++ "\n").data
        Option.none) "x" =
      Option.some (Inference.makeG .list (.cons (Inference.make .randomAny) .nil)) ∧
    ¬(Inference.TypeKind.randomAny = Inference.TypeKind.int) :=
  ⟨rfl, by decide⟩

/-- C3 (amended to the revised `ExpressionInference`).  Any
declaration line whose right-hand side matches the
builtin-collection constructor pattern assigns the declared name the
collection kind named by the match: with the explicit (non-empty)
bracket content the generics are that content split on top-level
commas and parsed by the Type Parser, in order; with no bracket
content the generics are `Unknown` placeholders sized to the
collection's arity (1 for `List`/`MutableSet`, 2 for `MutableMap`).
The literal branches cannot fire first: a constructor match starts
with whitespace, `L` or `M`. -/
theorem C3_explicit_generics_amended (line x v cname : List Char)
    (hdecl : extractDeclarationNameAndValue line = Option.some (x, v))
    (hctor : extractBuiltinCollectionConstructor v = Option.some cname) :
    (∀ g, extractGenericContent v = Option.some g → ¬(g = []) →
      lookupT (scanDeclarations [] [line] []) (String.mk x) =
        Option.some (TypeInfo.mk (typeNameToKind cname)
          (GenOpt.some (GList.ofList ((parseCommaSeparated g).map parseTypeString)))
          Option.none Option.none)) ∧
    (extractGenericContent v = Option.none →
      lookupT (scanDeclarations [] [line] []) (String.mk x) =
        Option.some (collectionPlaceholders (typeNameToKind cname))) := by
  obtain ⟨hs, hb, hi⟩ := builtinCtor_literals_false hctor
  have hmap : scanDeclarations [] [line] [] =
      setEntry [] (String.mk x) (inferExpressionType [] [] v) := by
    simp [scanDeclarations, hdecl]
  have hinf : inferExpressionType [] [] v =
      processBuiltinCollectionConstructor cname v := by
    simp [inferExpressionType, hs, hb, hi, hctor]
  constructor
  · intro g hg hne
    have hge : g.isEmpty = false := by
      cases g with
      | nil => exact absurd rfl hne
      | cons a as => rfl
    rw [hmap, lookupT_setEntry_nil, hinf]
    simp [processBuiltinCollectionConstructor, hg, hge]
  · intro hg
    rw [hmap, lookupT_setEntry_nil, hinf]
    simp [processBuiltinCollectionConstructor, hg]

/-- C3, witness at `val lst = List<Int>.new()`: the declared name
receives `List` with the single parsed generic `Int`. -/
theorem C3_explicit_generics_amended_witness :
    extractDeclarationNameAndValue ("val lst = List<Int>.new()").data =
      Option.some (("lst").data, ("List<Int>.new()").data) ∧
    extractBuiltinCollectionConstructor ("List<Int>.new()").data =
      Option.some (("List").data) ∧
    extractGenericContent ("List<Int>.new()").data = Option.some (("Int").data) ∧
    lookupT (scanDeclarations [] [("val lst = List<Int>.new()").data] []) "lst" =
      Option.some (TypeInfo.mk .list (.some (.cons (t0 .int) .nil))
        Option.none Option.none) :=
  ⟨rfl, rfl, rfl, by
    have h := (C3_explicit_generics_amended ("val lst = List<Int>.new()").data
        ("lst").data ("List<Int>.new()").data ("List").data rfl rfl).1
        ("Int").data rfl (by decide)
    exact h.trans rfl⟩

end Types

end Synotra
